import Mathlib

/-!
# AOS_lab3: the custom floating-point encoder `toCustomFloat`

A shallow embedding of `src/AOS_lab3.cpp`.

* An IEEE-754 binary64 value (`double`) is its three bit fields: the sign bit,
  the 11-bit biased exponent and the 52-bit fraction.  `Double.toRat` gives the
  rational value of a finite double.
* The `<cmath>` functions the encoder calls (`isnan`, `isinf`, `signbit`,
  `fabs`, `frexp`) are exact operations on the bit fields.
* The two arithmetic operations of line 44 (`frac - 0.5` and the product with
  `1 << M_SIZE`) are IEEE operations: the exact rational result rounded to the
  nearest double, ties to even (`Double.round`).
* The stores into `uint16_t exponent` and `uint32_t mantissa` are conversions:
  reduction modulo `2^16` for the `int`, truncation toward zero for the
  `double`.
* The values of `printStandardValues` are built with `std::ldexp`, which rounds
  like any other operation and so overflows to infinity and underflows to zero.
* The body of `calculateF` is written once over an arithmetic and read both in
  IEEE double arithmetic (the program) and in exact rational arithmetic.
* The trip of the result through `std::to_string` and `std::stod` in `main` is
  the rounding to six decimal places followed by the rounding to a double.
-/

namespace AOSLab3

/-! ## IEEE-754 binary64 -/

/-- An IEEE-754 binary64 value, as its three bit fields. -/
structure Double where
  /-- Bit 63: the sign bit. -/
  sign : Bool
  /-- Bits 62..52: the biased exponent. -/
  expo : Nat
  /-- Bits 51..0: the fraction. -/
  frac : Nat
  expo_lt : expo < 2048
  frac_lt : frac < 2 ^ 52
deriving DecidableEq

namespace Double

/-- Build a double from a sign and two naturals, keeping the low 11 bits of the
exponent and the low 52 bits of the fraction. -/
def ofFields (s : Bool) (e f : Nat) : Double :=
  ⟨s, e % 2048, f % 2 ^ 52, Nat.mod_lt _ (by decide), Nat.mod_lt _ (Nat.pos_pow_of_pos 52 (by decide))⟩

/-- The default quiet NaN. -/
def qNaN : Double := ofFields false 2047 (2 ^ 51)

/-- Infinity of the given sign. -/
def inf (s : Bool) : Double := ofFields s 2047 0

/-- Zero of the given sign. -/
def zero (s : Bool) : Double := ofFields s 0 0

/-- The literal `0.5`. -/
def half : Double := ofFields false 1022 0

/-- The literal `1.0`. -/
def one : Double := ofFields false 1023 0

/-- The function `std::isnan`. -/
def isnan (d : Double) : Bool := d.expo == 2047 && d.frac != 0

/-- The function `std::isinf`. -/
def isinf (d : Double) : Bool := d.expo == 2047 && d.frac == 0

/-- The comparison `value == 0.0`: true for `+0.0` and `-0.0` only. -/
def isZero (d : Double) : Bool := d.expo == 0 && d.frac == 0

/-- The function `std::signbit`. -/
def signbit (d : Double) : Bool := d.sign

/-- The function `std::fabs`: clears the sign bit. -/
def fabs (d : Double) : Double := { d with sign := false }

/-- Unary minus: flips the sign bit. -/
def neg (d : Double) : Double := { d with sign := !d.sign }

/-- The function `std::isfinite`: neither NaN nor an infinity. -/
def isfinite (d : Double) : Bool := d.expo != 2047

/-- Finite and nonzero: neither NaN, nor an infinity, nor a zero. -/
def finiteNonzero (d : Double) : Bool := !d.isnan && !d.isinf && !d.isZero

/-- The magnitude of a finite double: `frac × 2^-1074` for a subnormal,
`(2^52 + frac) × 2^(expo - 1075)` for a normal number. -/
def absRat (d : Double) : ℚ :=
  if d.expo = 0 then (d.frac : ℚ) * 2 ^ (-1074 : ℤ)
  else (2 ^ 52 + d.frac : ℚ) * 2 ^ ((d.expo : ℤ) - 1075)

/-- The value of a finite double (meaningless when `expo = 2047`). -/
def toRat (d : Double) : ℚ :=
  if d.sign then -d.absRat else d.absRat

/-- The function `std::frexp`: the fraction in `[0.5, 1)` (as a double of the same sign) and
the binary exponent.  Zeros, infinities and NaNs are returned unchanged with
exponent `0`.  A normal number keeps its fraction field; a subnormal one is
normalised by shifting its leading bit out of the 52-bit field. -/
def frexp (d : Double) : Double × Int :=
  if d.expo = 2047 then (d, 0)
  else if d.expo = 0 then
    if d.frac = 0 then (d, 0)
    else (ofFields d.sign 1022 (d.frac * 2 ^ (52 - d.frac.log2)), (d.frac.log2 : Int) - 1073)
  else (ofFields d.sign 1022 d.frac, (d.expo : Int) - 1022)

/-- Round a rational to the nearest integer, ties to the even one. -/
def roundHalfEven (x : ℚ) : ℤ :=
  let n := ⌊x⌋
  let r := x - n
  if r < 1 / 2 then n
  else if 1 / 2 < r then n + 1
  else if n % 2 = 0 then n else n + 1

/-- Round a rational to the nearest double, ties to even (the default IEEE
rounding); magnitudes from `2^1024 - 2^970` up become infinity, and an exact
zero takes the sign `s0` supplied by the operation. -/
def round (q : ℚ) (s0 : Bool) : Double :=
  if q = 0 then zero s0
  else
    let s := decide (q < 0)
    let a := |q|
    let e := max (Int.log 2 a) (-1022)
    let m := (roundHalfEven (a * 2 ^ (52 - e))).toNat
    let e := if m = 2 ^ 53 then e + 1 else e
    let m := if m = 2 ^ 53 then 2 ^ 52 else m
    if 1023 < e then inf s
    else if m < 2 ^ 52 then ofFields s 0 m
    else ofFields s (e + 1023).toNat m

/-- IEEE subtraction `a - b`. -/
def sub (a b : Double) : Double :=
  if a.isnan || b.isnan then qNaN
  else if a.isinf then (if b.isinf && a.sign == b.sign then qNaN else a)
  else if b.isinf then neg b
  else round (a.toRat - b.toRat) (a.sign && !b.sign)

/-- IEEE multiplication `a * b`. -/
def mul (a b : Double) : Double :=
  if a.isnan || b.isnan then qNaN
  else if a.isinf || b.isinf then
    (if a.isZero || b.isZero then qNaN else inf (xor a.sign b.sign))
  else round (a.toRat * b.toRat) (xor a.sign b.sign)

/-- IEEE addition `a + b`. -/
def add (a b : Double) : Double :=
  if a.isnan || b.isnan then qNaN
  else if a.isinf then (if b.isinf && a.sign != b.sign then qNaN else a)
  else if b.isinf then b
  else round (a.toRat + b.toRat) (a.sign && b.sign)

/-- IEEE division `a / b`. -/
def div (a b : Double) : Double :=
  if a.isnan || b.isnan then qNaN
  else if a.isinf then (if b.isinf then qNaN else inf (xor a.sign b.sign))
  else if b.isinf then zero (xor a.sign b.sign)
  else if b.isZero then (if a.isZero then qNaN else inf (xor a.sign b.sign))
  else round (a.toRat / b.toRat) (xor a.sign b.sign)

/-- The function `std::ldexp`: `x × 2^n`, rounded to the nearest double; NaNs,
infinities and zeros are returned unchanged. -/
def ldexp (x : Double) (n : Int) : Double :=
  if x.isnan then qNaN
  else if x.isinf || x.isZero then x
  else round (x.toRat * 2 ^ n) x.sign

/-- The magnitude written by `std::to_string` for a finite double:
`std::to_string(double)` formats as `printf` does with `%f`, that is the decimal
with six digits after the point nearest to `|r|` (a tie, which depends on the
C library, is resolved to the even digit here). -/
def toStringMagnitude (r : Double) : ℚ := (roundHalfEven (r.absRat * 10 ^ 6) : ℚ) / 10 ^ 6

/-- The double `std::stod(std::to_string(r))`: the text of a NaN parses to a NaN,
the text of an infinity to that infinity, and the decimal text of a finite
value, with its sign character, to the nearest double. -/
def stodToString (r : Double) : Double :=
  if r.isnan then ofFields r.sign 2047 (2 ^ 51)
  else if r.isinf then r
  else round (if r.sign then -r.toStringMagnitude else r.toStringMagnitude) r.sign

/-- Conversion of an `int` to `double`. -/
def ofInt (n : Int) : Double := round (n : ℚ) false

/-- Truncation toward zero of a rational. -/
def truncRat (q : ℚ) : ℤ := if 0 ≤ q then ⌊q⌋ else ⌈q⌉

/-- Conversion of a `double` to `uint32_t`: the value truncated toward zero
(defined by the language when the truncated value fits in 32 bits). -/
def toUInt32 (d : Double) : Nat := (truncRat d.toRat % 2 ^ 32).toNat

end Double

/-- Conversion of an `int` to `uint16_t`: reduction modulo `2^16`. -/
def toUInt16 (n : Int) : Nat := (n % 2 ^ 16).toNat

/-! ## The program -/

/-- Number of bits of the exponent field (`#define H_SIZE 15`). -/
def H_SIZE : Nat := 15

/-- Number of bits of the mantissa field (`#define M_SIZE 24`). -/
def M_SIZE : Nat := 24

/-- The record `struct CustomFloat`; `exponent` is a `uint16_t` and `mantissa`
a `uint32_t`. -/
structure CustomFloat where
  sign : Bool
  exponent : Nat
  mantissa : Nat
deriving DecidableEq, Repr

/-- The constant `EXPONENT_BIAS = (1 << (H_SIZE - 1)) - 1`. -/
def EXPONENT_BIAS : Int := ((1 <<< (H_SIZE - 1) : Nat) : Int) - 1

/-- The function `toCustomFloat` (lines 21-47). -/
def toCustomFloat (value : Double) : CustomFloat :=
  if value.isnan then
    { sign := false, exponent := toUInt16 (((1 <<< H_SIZE : Nat) : Int) - 1), mantissa := 1 }
  else if value.isinf then
    { sign := value.signbit, exponent := toUInt16 (((1 <<< H_SIZE : Nat) : Int) - 1), mantissa := 0 }
  else if value.isZero then
    { sign := value.signbit, exponent := 0, mantissa := 0 }
  else
    let sign := value.signbit
    let value := value.fabs
    let fe := value.frexp
    let frac := fe.1
    let exp := fe.2
    { sign := sign,
      exponent := toUInt16 (exp + EXPONENT_BIAS - 1),
      mantissa := ((frac.sub Double.half).mul (Double.ofInt ((1 <<< M_SIZE : Nat) : Int))).toUInt32 }

/-- The bits `std::bitset<N>(x)` keeps of an unsigned value: the low `N`. -/
def bitset (N x : Nat) : Nat := x % 2 ^ N

/-- The value `min_nonzero` of `printStandardValues` (line 61), computed again
as `subnormal` (line 87): `std::ldexp(1.0, -EXPONENT_BIAS - M_SIZE + 1)`. -/
def min_nonzero : Double := Double.ldexp Double.one (-EXPONENT_BIAS - (M_SIZE : Int) + 1)

/-- The value `max_positive` of `printStandardValues` (line 66):
`std::ldexp((1.0 - std::ldexp(1.0, -M_SIZE)), EXPONENT_BIAS)`. -/
def max_positive : Double :=
  Double.ldexp (Double.sub Double.one (Double.ldexp Double.one (-(M_SIZE : Int)))) EXPONENT_BIAS

/-- The exception `calculateF` throws. -/
inductive StdException where
  | invalid_argument
deriving DecidableEq, Repr

/-- The arithmetic `calculateF` is written in: the conversion of an `int`
literal, product, sum, quotient, and the comparison `x == 0`. -/
structure Arith (α : Type) where
  ofInt : Int → α
  mul : α → α → α
  add : α → α → α
  div : α → α → α
  eqZero : α → Bool

/-- The body of `calculateF` (lines 96-101) over an arithmetic `A`:
`if (a == 0 && b == 0) throw ...; return (2 * a * b) / (a * a + b * b);`. -/
def calculateFWith {α : Type} (A : Arith α) (a b : α) : Except StdException α :=
  if A.eqZero a && A.eqZero b then Except.error StdException.invalid_argument
  else Except.ok (A.div (A.mul (A.mul (A.ofInt 2) a) b) (A.add (A.mul a a) (A.mul b b)))

/-- IEEE double arithmetic, the arithmetic of the program. -/
def doubleArith : Arith Double :=
  { ofInt := Double.ofInt, mul := Double.mul, add := Double.add, div := Double.div,
    eqZero := Double.isZero }

/-- Exact arithmetic on the rationals. -/
def exactArith : Arith ℚ :=
  { ofInt := fun n => (n : ℚ), mul := fun x y => x * y, add := fun x y => x + y,
    div := fun x y => x / y, eqZero := fun x => decide (x = 0) }

/-- The function `calculateF` of the program, on doubles. -/
def calculateF (a b : Double) : Except StdException Double := calculateFWith doubleArith a b

/-- The expression of `calculateF` evaluated in exact arithmetic. -/
def calculateFExact (a b : ℚ) : Except StdException ℚ := calculateFWith exactArith a b

/-- Lines 133-141 of `main`: the record printed for the result of `calculateF`,
which is encoded after a trip through `std::to_string` and `std::stod`. -/
def mainResultRecord (a b : Double) : Except StdException CustomFloat :=
  match calculateF a b with
  | Except.error e => Except.error e
  | Except.ok result => Except.ok (toCustomFloat (Double.stodToString result))

/-! ## Rounding is the identity on representable values -/

namespace Double

theorem roundHalfEven_intCast (n : ℤ) : roundHalfEven (n : ℚ) = n := by
  simp [roundHalfEven]

theorem log_eq_of_bounds (a : ℚ) (k : ℤ) (h1 : (2 : ℚ) ^ k ≤ a) (h2 : a < (2 : ℚ) ^ (k + 1)) :
    Int.log 2 a = k := by
  have ha : 0 < a := lt_of_lt_of_le (by positivity) h1
  have hb : 1 < (2 : ℕ) := by decide
  apply le_antisymm
  · have := (Int.lt_zpow_iff_log_lt hb ha (x := k + 1)).1 (by simpa using h2)
    omega
  · exact (Int.zpow_le_iff_le_log hb ha).1 (by simpa using h1)

theorem absRat_nonneg (d : Double) : 0 ≤ d.absRat := by
  unfold absRat
  split <;> positivity

theorem abs_toRat (d : Double) : |d.toRat| = d.absRat := by
  unfold toRat
  split
  · rw [abs_neg, abs_of_nonneg d.absRat_nonneg]
  · exact abs_of_nonneg d.absRat_nonneg

theorem absRat_pos (d : Double) (hnz : d.isZero = false) : 0 < d.absRat := by
  unfold absRat
  split
  · rename_i h
    have : d.frac ≠ 0 := by
      intro hf
      simp [isZero, h, hf] at hnz
    have : (0 : ℚ) < d.frac := by exact_mod_cast Nat.pos_of_ne_zero this
    positivity
  · positivity

theorem toRat_neg_iff (d : Double) (hnz : d.isZero = false) : d.toRat < 0 ↔ d.sign = true := by
  have hp := d.absRat_pos hnz
  unfold toRat
  split
  · rename_i h
    simp [h, hp]
  · rename_i h
    simp [h, hp.le]

theorem toRat_ne_zero (d : Double) (hnz : d.isZero = false) : d.toRat ≠ 0 := by
  have hp := d.absRat_pos hnz
  rw [← abs_toRat] at hp
  exact abs_pos.1 hp

theorem ofFields_eq (d : Double) : ofFields d.sign d.expo d.frac = d := by
  cases d with
  | mk s e f he hf =>
    simp only [ofFields, Double.mk.injEq]
    exact ⟨trivial, Nat.mod_eq_of_lt he, Nat.mod_eq_of_lt hf⟩

theorem round_core (q : ℚ) (s0 : Bool) (hq : q ≠ 0) (e : ℤ) (m : ℕ)
    (hlog : max (Int.log 2 |q|) (-1022) = e) (hm : |q| * 2 ^ (52 - e) = (m : ℚ))
    (hm53 : m < 2 ^ 53) (he : e ≤ 1023) :
    round q s0 = if m < 2 ^ 52 then ofFields (decide (q < 0)) 0 m
      else ofFields (decide (q < 0)) (e + 1023).toNat m := by
  have hcast : roundHalfEven (m : ℚ) = (m : ℤ) := by
    have := roundHalfEven_intCast (m : ℤ)
    simpa using this
  have h53 : ¬ m = 2 ^ 53 := by omega
  have he2 : ¬ 1023 < e := by omega
  simp only [round, if_neg hq, hlog, hm, hcast, Int.toNat_natCast, if_neg h53, if_neg he2]

theorem round_toRat (d : Double) (hfin : d.expo ≠ 2047) (hnz : d.isZero = false) (s0 : Bool) :
    round d.toRat s0 = d := by
  have hq := d.toRat_ne_zero hnz
  have hs : decide (d.toRat < 0) = d.sign := by
    rcases hsg : d.sign with _ | _
    · simpa [hsg] using (d.toRat_neg_iff hnz).not.2 (by simp [hsg])
    · simpa [hsg] using (d.toRat_neg_iff hnz).2 hsg
  have hf := d.frac_lt
  have hE := d.expo_lt
  by_cases h0 : d.expo = 0
  · -- subnormal
    have hfpos : d.frac ≠ 0 := by
      intro hf0
      simp [isZero, h0, hf0] at hnz
    have habs : |d.toRat| = (d.frac : ℚ) * 2 ^ (-1074 : ℤ) := by
      rw [abs_toRat, absRat, if_pos h0]
    have hlt : |d.toRat| < (2 : ℚ) ^ (-1022 : ℤ) := by
      rw [habs]
      have : (d.frac : ℚ) < 2 ^ (52 : ℤ) := by exact_mod_cast hf
      calc (d.frac : ℚ) * 2 ^ (-1074 : ℤ) < 2 ^ (52 : ℤ) * 2 ^ (-1074 : ℤ) := by
            apply mul_lt_mul_of_pos_right this (by positivity)
        _ = 2 ^ (-1022 : ℤ) := by rw [← zpow_add₀ (by norm_num)]; norm_num
    have hlog : max (Int.log 2 |d.toRat|) (-1022) = -1022 := by
      apply max_eq_right
      have := (Int.lt_zpow_iff_log_lt (b := 2) (by decide) (abs_pos.2 hq) (x := -1022)).1
        (by simpa using hlt)
      omega
    have hm : |d.toRat| * 2 ^ (52 - (-1022 : ℤ)) = (d.frac : ℚ) := by
      rw [habs, mul_assoc, ← zpow_add₀ (by norm_num)]
      norm_num
    rw [round_core d.toRat s0 hq (-1022) d.frac hlog hm (by omega) (by norm_num), if_pos hf, hs]
    have := d.ofFields_eq
    rwa [h0] at this
  · -- normal
    have habs : |d.toRat| = (2 ^ 52 + d.frac : ℚ) * 2 ^ ((d.expo : ℤ) - 1075) := by
      rw [abs_toRat, absRat, if_neg h0]
    have hfq : (d.frac : ℚ) < 2 ^ 52 := by exact_mod_cast hf
    have hfq0 : (0 : ℚ) ≤ d.frac := by positivity
    have hlog0 : Int.log 2 |d.toRat| = (d.expo : ℤ) - 1023 := by
      apply log_eq_of_bounds
      · rw [habs]
        calc (2 : ℚ) ^ ((d.expo : ℤ) - 1023) = 2 ^ (52 : ℤ) * 2 ^ ((d.expo : ℤ) - 1075) := by
              rw [← zpow_add₀ (by norm_num)]; congr 1; ring
          _ ≤ (2 ^ 52 + d.frac : ℚ) * 2 ^ ((d.expo : ℤ) - 1075) := by
              apply mul_le_mul_of_nonneg_right _ (by positivity)
              norm_num
      · rw [habs]
        calc (2 ^ 52 + d.frac : ℚ) * 2 ^ ((d.expo : ℤ) - 1075)
            < 2 ^ (53 : ℤ) * 2 ^ ((d.expo : ℤ) - 1075) := by
              apply mul_lt_mul_of_pos_right _ (by positivity)
              norm_num; linarith
          _ = (2 : ℚ) ^ ((d.expo : ℤ) - 1023 + 1) := by
              rw [← zpow_add₀ (by norm_num)]; congr 1; ring
    have hlog : max (Int.log 2 |d.toRat|) (-1022) = (d.expo : ℤ) - 1023 := by
      rw [hlog0]; apply max_eq_left; omega
    have hm : |d.toRat| * 2 ^ (52 - ((d.expo : ℤ) - 1023)) = ((2 ^ 52 + d.frac : ℕ) : ℚ) := by
      rw [habs, mul_assoc, ← zpow_add₀ (by norm_num)]
      have : (d.expo : ℤ) - 1075 + (52 - ((d.expo : ℤ) - 1023)) = 0 := by ring
      rw [this]; push_cast; norm_num
    rw [round_core d.toRat s0 hq _ _ hlog hm (by omega) (by omega), if_neg (by omega), hs]
    have h1 : ((d.expo : ℤ) - 1023 + 1023).toNat = d.expo := by simp
    rw [h1]
    have h2 : ofFields d.sign d.expo (2 ^ 52 + d.frac) = ofFields d.sign d.expo d.frac := by
      simp only [ofFields, Double.mk.injEq, true_and]
      rw [Nat.add_mod_left]
    rw [h2, d.ofFields_eq]

/-- Every `m × 2^e` with a significand of at most 53 bits and an exponent in
the normal range is the value of a finite nonzero double. -/
theorem exists_double (m : ℕ) (e : ℤ) (hm0 : m ≠ 0) (hm : m < 2 ^ 53) (he : -1022 ≤ e)
    (he2 : e ≤ 971) :
    ∃ d : Double, d.expo ≠ 2047 ∧ d.isZero = false ∧ d.sign = false ∧
      d.toRat = (m : ℚ) * 2 ^ e := by
  have hL1 : 2 ^ m.log2 ≤ m := Nat.log2_self_le hm0
  have hL2 : m < 2 ^ (m.log2 + 1) := Nat.lt_log2_self
  have hL : m.log2 < 53 := (Nat.log2_lt hm0).2 hm
  have hpow : 2 ^ m.log2 * 2 ^ (52 - m.log2) = 2 ^ 52 := by
    rw [← pow_add]; congr 1; omega
  have hlo : 2 ^ 52 ≤ m * 2 ^ (52 - m.log2) := by
    rw [← hpow]; exact Nat.mul_le_mul_right _ hL1
  have hhi : m * 2 ^ (52 - m.log2) < 2 ^ 52 + 2 ^ 52 := by
    have h2 : 2 ^ (m.log2 + 1) * 2 ^ (52 - m.log2) = 2 ^ 52 + 2 ^ 52 := by
      rw [← pow_add, ← two_mul, ← pow_succ']; congr 1; omega
    rw [← h2]
    exact Nat.mul_lt_mul_of_pos_right hL2 (Nat.pos_pow_of_pos _ (by decide))
  have hE : (e + m.log2 + 1023).toNat < 2048 := by omega
  refine ⟨⟨false, (e + m.log2 + 1023).toNat, m * 2 ^ (52 - m.log2) - 2 ^ 52, hE, by omega⟩,
    ?_, ?_, rfl, ?_⟩
  · show (e + m.log2 + 1023).toNat ≠ 2047
    omega
  · have : (e + m.log2 + 1023).toNat ≠ 0 := by omega
    simp [isZero, this]
  · have hne : (e + m.log2 + 1023).toNat ≠ 0 := by omega
    have hcast : (((e + m.log2 + 1023).toNat : ℕ) : ℤ) = e + m.log2 + 1023 := by
      rw [Int.toNat_of_nonneg]; omega
    simp only [toRat, absRat, if_neg hne, hcast]
    rw [Nat.cast_sub hlo]
    push_cast
    have hz : ((2 : ℚ) ^ (52 - m.log2) : ℚ) = (2 : ℚ) ^ ((52 : ℤ) - m.log2) := by
      rw [← zpow_natCast]; congr 1; omega
    rw [hz]
    have : (2 : ℚ) ^ 52 + ((m : ℚ) * 2 ^ ((52 : ℤ) - m.log2) - 4503599627370496)
        = (m : ℚ) * 2 ^ ((52 : ℤ) - m.log2) := by ring
    rw [this, mul_assoc, ← zpow_add₀ (by norm_num)]
    congr 2
    ring

/-- Rounding `m × 2^e` (significand of at most 53 bits, exponent in the normal
range) gives a finite double of exactly that value. -/
theorem round_exact (m : ℕ) (e : ℤ) (hm : m < 2 ^ 53) (he : -1022 ≤ e) (he2 : e ≤ 971)
    (s0 : Bool) :
    (round ((m : ℚ) * 2 ^ e) s0).expo ≠ 2047 ∧
      (round ((m : ℚ) * 2 ^ e) s0).toRat = (m : ℚ) * 2 ^ e := by
  by_cases hm0 : m = 0
  · subst hm0
    cases s0 <;> simp [round, zero, ofFields, toRat, absRat]
  · obtain ⟨d, hfin, hnz, -, hval⟩ := exists_double m e hm0 hm he he2
    rw [← hval, round_toRat d hfin hnz s0]
    exact ⟨hfin, rfl⟩

/-! ## The specification of `frexp` -/

theorem finiteNonzero_iff (d : Double) :
    d.finiteNonzero = true ↔ d.expo ≠ 2047 ∧ d.isZero = false := by
  unfold finiteNonzero isnan isinf
  by_cases h : d.expo = 2047 <;> by_cases h2 : d.frac = 0 <;> simp [h, h2]

theorem ofFields_sign (s : Bool) (e f : Nat) : (ofFields s e f).sign = s := rfl

theorem ofFields_expo (s : Bool) (e f : Nat) : (ofFields s e f).expo = e % 2048 := rfl

theorem ofFields_frac (s : Bool) (e f : Nat) : (ofFields s e f).frac = f % 2 ^ 52 := rfl

/-- The magnitude of a double whose exponent field is 1022 lies in `[1/2, 1)`. -/
theorem absRat_of_expo_1022 (d : Double) (h : d.expo = 1022) :
    d.absRat = (2 ^ 52 + d.frac : ℚ) * 2 ^ (-53 : ℤ) := by
  rw [absRat, if_neg (by omega), h]
  norm_num

/-- On a finite nonzero double `frexp` returns a fraction with exponent field
1022 (magnitude in `[1/2, 1)`), the sign of its argument, and an exponent in
`[-1073, 1024]` such that `|d| = |fraction| × 2^exponent`. -/
theorem frexp_spec (d : Double) (h : d.finiteNonzero = true) :
    (frexp d).1.expo = 1022 ∧ (frexp d).1.sign = d.sign ∧
      d.absRat = (frexp d).1.absRat * 2 ^ (frexp d).2 ∧
      -1073 ≤ (frexp d).2 ∧ (frexp d).2 ≤ 1024 := by
  obtain ⟨hfin, hnz⟩ := (finiteNonzero_iff d).1 h
  have hf := d.frac_lt
  have hE := d.expo_lt
  by_cases h0 : d.expo = 0
  · have hfpos : d.frac ≠ 0 := by
      intro hf0
      simp [isZero, h0, hf0] at hnz
    have hr : frexp d = (ofFields d.sign 1022 (d.frac * 2 ^ (52 - d.frac.log2)),
        (d.frac.log2 : Int) - 1073) := by
      simp only [frexp, if_neg hfin, if_pos h0, if_neg hfpos]
    have hL1 : 2 ^ d.frac.log2 ≤ d.frac := Nat.log2_self_le hfpos
    have hL2 : d.frac < 2 ^ (d.frac.log2 + 1) := Nat.lt_log2_self
    have hL : d.frac.log2 < 52 := (Nat.log2_lt hfpos).2 hf
    have hpow : 2 ^ d.frac.log2 * 2 ^ (52 - d.frac.log2) = 2 ^ 52 := by
      rw [← pow_add]; congr 1; omega
    have hlo : 2 ^ 52 ≤ d.frac * 2 ^ (52 - d.frac.log2) := by
      rw [← hpow]; exact Nat.mul_le_mul_right _ hL1
    have hhi : d.frac * 2 ^ (52 - d.frac.log2) < 2 ^ 52 + 2 ^ 52 := by
      have h2 : 2 ^ (d.frac.log2 + 1) * 2 ^ (52 - d.frac.log2) = 2 ^ 52 + 2 ^ 52 := by
        rw [← pow_add, ← two_mul, ← pow_succ']; congr 1; omega
      rw [← h2]
      exact Nat.mul_lt_mul_of_pos_right hL2 (Nat.pos_pow_of_pos _ (by decide))
    have hmod : (d.frac * 2 ^ (52 - d.frac.log2)) % 2 ^ 52
        = d.frac * 2 ^ (52 - d.frac.log2) - 2 ^ 52 := by
      rw [Nat.mod_eq_sub_mod hlo, Nat.mod_eq_of_lt (by omega)]
    rw [hr]
    refine ⟨rfl, rfl, ?_, by show (-1073 : ℤ) ≤ (d.frac.log2 : ℤ) - 1073; omega,
      by show (d.frac.log2 : ℤ) - 1073 ≤ 1024; omega⟩
    rw [absRat_of_expo_1022 (ofFields d.sign 1022 (d.frac * 2 ^ (52 - d.frac.log2))) rfl]
    show d.absRat = (2 ^ 52 + ((ofFields d.sign 1022 (d.frac * 2 ^ (52 - d.frac.log2))).frac : ℚ))
      * 2 ^ (-53 : ℤ) * 2 ^ ((d.frac.log2 : ℤ) - 1073)
    rw [ofFields_frac, hmod, Nat.cast_sub hlo, absRat, if_pos h0]
    push_cast
    have hz : ((2 : ℚ) ^ (52 - d.frac.log2) : ℚ) = (2 : ℚ) ^ ((52 : ℤ) - d.frac.log2) := by
      rw [← zpow_natCast]; congr 1; omega
    rw [hz]
    have : (2 : ℚ) ^ 52 + ((d.frac : ℚ) * 2 ^ ((52 : ℤ) - d.frac.log2) - 4503599627370496)
        = (d.frac : ℚ) * 2 ^ ((52 : ℤ) - d.frac.log2) := by ring
    rw [this, mul_assoc, mul_assoc, ← zpow_add₀ (by norm_num), ← zpow_add₀ (by norm_num)]
    congr 2
    ring
  · have hr : frexp d = (ofFields d.sign 1022 d.frac, (d.expo : Int) - 1022) := by
      simp only [frexp, if_neg hfin, if_neg h0]
    rw [hr]
    refine ⟨rfl, rfl, ?_, by show (-1073 : ℤ) ≤ (d.expo : ℤ) - 1022; omega,
      by show (d.expo : ℤ) - 1022 ≤ 1024; omega⟩
    rw [absRat_of_expo_1022 (ofFields d.sign 1022 d.frac) rfl]
    show d.absRat = (2 ^ 52 + ((ofFields d.sign 1022 d.frac).frac : ℚ))
      * 2 ^ (-53 : ℤ) * 2 ^ ((d.expo : ℤ) - 1022)
    rw [ofFields_frac, Nat.mod_eq_of_lt hf, absRat, if_neg h0, mul_assoc,
      ← zpow_add₀ (by norm_num)]
    congr 2
    ring

/-! ## The arithmetic of line 44 is exact -/

theorem toRat_half : half.toRat = 1 / 2 := by
  simp only [half, ofFields, toRat, absRat]
  norm_num

theorem not_special_of_expo (d : Double) (h : d.expo ≠ 2047) :
    d.isnan = false ∧ d.isinf = false := by
  simp [isnan, isinf, h]

theorem floor_mul_zpow (f : ℕ) : ⌊(f : ℚ) * 2 ^ (-29 : ℤ)⌋ = ((f / 2 ^ 29 : ℕ) : ℤ) := by
  have : (f : ℚ) * 2 ^ (-29 : ℤ) = (f : ℚ) / ((2 ^ 29 : ℕ) : ℚ) := by
    rw [zpow_neg, div_eq_mul_inv]; norm_num
  rw [this, Rat.floor_natCast_div_natCast]
  norm_num

/-- The value stored in `mantissa`: for a fraction `fr` returned by `frexp`
(exponent field 1022, sign cleared), `(fr - 0.5) * (1 << M_SIZE)` converted to
`uint32_t` is the fraction field of `fr` shifted right by 29 bits.  Both
floating-point operations are exact. -/
theorem mantissa_arith (fr : Double) (h1022 : fr.expo = 1022) (hs : fr.sign = false) :
    ((fr.sub half).mul (ofInt ((1 <<< M_SIZE : Nat) : Int))).toUInt32 = fr.frac / 2 ^ 29 := by
  have hf := fr.frac_lt
  obtain ⟨hn1, hi1⟩ := not_special_of_expo fr (by omega)
  have hn2 : half.isnan = false := rfl
  have hi2 : half.isinf = false := rfl
  have hfr : fr.toRat = (2 ^ 52 + fr.frac : ℚ) * 2 ^ (-53 : ℤ) := by
    rw [toRat, hs, absRat_of_expo_1022 fr h1022]; rfl
  have hsubq : fr.toRat - half.toRat = (fr.frac : ℚ) * 2 ^ (-53 : ℤ) := by
    rw [hfr, toRat_half, add_mul]
    have : (2 : ℚ) ^ 52 * 2 ^ (-53 : ℤ) = 1 / 2 := by norm_num
    rw [this]; ring
  have hsub : fr.sub half = round ((fr.frac : ℚ) * 2 ^ (-53 : ℤ)) (fr.sign && !half.sign) := by
    simp only [sub, hn1, hn2, hi1, hi2, hsubq]
    rfl
  obtain ⟨he1, hv1⟩ := round_exact fr.frac (-53) (by omega) (by norm_num) (by norm_num)
    (fr.sign && !half.sign)
  rw [← hsub] at he1 hv1
  have hc : ofInt ((1 <<< M_SIZE : Nat) : Int) = round (((2 ^ 24 : ℕ) : ℚ) * 2 ^ (0 : ℤ)) false := by
    simp only [ofInt, M_SIZE]
    congr 1
    simp [Nat.shiftLeft_eq]
  obtain ⟨he2, hv2⟩ := round_exact (2 ^ 24) 0 (by norm_num) (by norm_num) (by norm_num) false
  rw [← hc] at he2 hv2
  obtain ⟨hn3, hi3⟩ := not_special_of_expo _ he1
  obtain ⟨hn4, hi4⟩ := not_special_of_expo _ he2
  have hmulq : (fr.sub half).toRat * (ofInt ((1 <<< M_SIZE : Nat) : Int)).toRat
      = (fr.frac : ℚ) * 2 ^ (-29 : ℤ) := by
    rw [hv1, hv2]
    norm_num
    ring
  have hmul : (fr.sub half).mul (ofInt ((1 <<< M_SIZE : Nat) : Int))
      = round ((fr.frac : ℚ) * 2 ^ (-29 : ℤ))
          (xor (fr.sub half).sign (ofInt ((1 <<< M_SIZE : Nat) : Int)).sign) := by
    simp only [mul, hn3, hn4, hi3, hi4, hmulq]
    rfl
  obtain ⟨-, hv3⟩ := round_exact fr.frac (-29) (by omega) (by norm_num) (by norm_num)
    (xor (fr.sub half).sign (ofInt ((1 <<< M_SIZE : Nat) : Int)).sign)
  rw [← hmul] at hv3
  have hnn : (0 : ℚ) ≤ (fr.frac : ℚ) * 2 ^ (-29 : ℤ) := by positivity
  have hdiv : fr.frac / 2 ^ 29 < 2 ^ 32 := by
    have : fr.frac / 2 ^ 29 ≤ fr.frac := Nat.div_le_self _ _
    have : fr.frac / 2 ^ 29 < 2 ^ 23 := by
      apply Nat.div_lt_of_lt_mul
      calc fr.frac < 2 ^ 52 := hf
        _ = 2 ^ 29 * 2 ^ 23 := by norm_num
    omega
  rw [toUInt32, hv3, truncRat, if_pos hnn, floor_mul_zpow]
  have : (((fr.frac / 2 ^ 29 : ℕ) : ℤ) % 2 ^ 32) = ((fr.frac / 2 ^ 29 : ℕ) : ℤ) := by
    apply Int.emod_eq_of_lt (by positivity)
    exact_mod_cast hdiv
  rw [this, Int.toNat_natCast]

theorem finiteNonzero_fabs (d : Double) : d.fabs.finiteNonzero = d.finiteNonzero := rfl

theorem absRat_fabs (d : Double) : d.fabs.absRat = d.absRat := rfl

theorem toRat_fabs (d : Double) : d.fabs.toRat = d.absRat := rfl

end Double

open Double

/-! ## The general branch in closed form -/

theorem toUInt16_of_range (n : ℤ) (h0 : 0 ≤ n) (h1 : n < 2 ^ 16) : (toUInt16 n : ℤ) = n := by
  rw [toUInt16, Int.emod_eq_of_lt h0 h1, Int.toNat_of_nonneg h0]

theorem EXPONENT_BIAS_eq : EXPONENT_BIAS = 16383 := by decide

/-- On a finite nonzero double the encoder takes its fourth branch; neither
store wraps, and both floating-point operations are exact. -/
theorem toCustomFloat_general (v : Double) (h : v.finiteNonzero = true) :
    (toCustomFloat v).sign = v.sign ∧
      ((toCustomFloat v).exponent : ℤ) = (frexp v.fabs).2 + 16382 ∧
      (toCustomFloat v).mantissa = (frexp v.fabs).1.frac / 2 ^ 29 := by
  have h1 : v.isnan = false := by
    simp only [finiteNonzero, Bool.and_eq_true, Bool.not_eq_true'] at h; exact h.1.1
  have h2 : v.isinf = false := by
    simp only [finiteNonzero, Bool.and_eq_true, Bool.not_eq_true'] at h; exact h.1.2
  have h3 : v.isZero = false := by
    simp only [finiteNonzero, Bool.and_eq_true, Bool.not_eq_true'] at h; exact h.2
  obtain ⟨he, hs, -, hlo, hhi⟩ := frexp_spec v.fabs (by rw [finiteNonzero_fabs]; exact h)
  have hm := mantissa_arith (frexp v.fabs).1 he hs
  simp only [toCustomFloat, h1, h2, h3, Bool.false_eq_true, if_false, hm, signbit, and_true,
    true_and]
  rw [toUInt16_of_range _ (by rw [EXPONENT_BIAS_eq]; omega) (by rw [EXPONENT_BIAS_eq]; omega),
    EXPONENT_BIAS_eq]
  ring

/-- The record built from a normal double: the exponent field is rebiased by
`16383 − 1023 = 15360` and the mantissa is the top 23 bits of the fraction. -/
theorem toCustomFloat_normal (v : Double) (h0 : v.expo ≠ 0) (h1 : v.expo ≠ 2047) :
    toCustomFloat v = ⟨v.sign, v.expo + 15360, v.frac / 2 ^ 29⟩ := by
  have hv : v.finiteNonzero = true := by
    rw [finiteNonzero_iff]; exact ⟨h1, by simp [isZero, h0]⟩
  obtain ⟨hs, he, hm⟩ := toCustomFloat_general v hv
  have hfr : frexp v.fabs = (ofFields false 1022 v.frac, (v.expo : Int) - 1022) := by
    simp only [frexp, fabs, if_neg h1, if_neg h0]
  rw [hfr] at he hm
  have hm2 : (toCustomFloat v).mantissa = v.frac / 2 ^ 29 := by
    rw [hm]; show v.frac % 2 ^ 52 / 2 ^ 29 = v.frac / 2 ^ 29
    rw [Nat.mod_eq_of_lt v.frac_lt]
  have he2 : (toCustomFloat v).exponent = v.expo + 15360 := by
    have : ((toCustomFloat v).exponent : ℤ) = (v.expo : ℤ) - 1022 + 16382 := he
    omega
  cases hr : toCustomFloat v with
  | mk s e m =>
    rw [hr] at hs he2 hm2
    simp only at hs he2 hm2
    rw [hs, he2, hm2]

/-- The record built from a subnormal double with fraction field `f ≠ 0`: the
leading bit of `f` (at position `log2 f`) fixes the exponent, and the bits
below it, left-aligned in 52 bits, give the mantissa. -/
theorem toCustomFloat_subnormal (v : Double) (h0 : v.expo = 0) (hf : v.frac ≠ 0) :
    toCustomFloat v = ⟨v.sign, v.frac.log2 + 15309,
      (v.frac * 2 ^ (52 - v.frac.log2)) % 2 ^ 52 / 2 ^ 29⟩ := by
  have hv : v.finiteNonzero = true := by
    rw [finiteNonzero_iff]; exact ⟨by omega, by simp [isZero, h0, hf]⟩
  obtain ⟨hs, he, hm⟩ := toCustomFloat_general v hv
  have hfr : frexp v.fabs = (ofFields false 1022 (v.frac * 2 ^ (52 - v.frac.log2)),
      (v.frac.log2 : Int) - 1073) := by
    have : ¬ v.expo = 2047 := by omega
    simp only [frexp, fabs, if_neg this, if_pos h0, if_neg hf]
  rw [hfr] at he hm
  have hm2 : (toCustomFloat v).mantissa
      = (v.frac * 2 ^ (52 - v.frac.log2)) % 2 ^ 52 / 2 ^ 29 := hm
  have he2 : (toCustomFloat v).exponent = v.frac.log2 + 15309 := by
    have : ((toCustomFloat v).exponent : ℤ) = (v.frac.log2 : ℤ) - 1073 + 16382 := he
    omega
  cases hr : toCustomFloat v with
  | mk s e m =>
    rw [hr] at hs he2 hm2
    simp only at hs he2 hm2
    rw [hs, he2, hm2]

/-! ## The value of a finite nonzero double and its `frexp` decomposition -/

theorem frac_bounds (F : ℕ) (hF : F < 2 ^ 52) :
    (1 / 2 : ℚ) ≤ (2 ^ 52 + F : ℚ) * 2 ^ (-53 : ℤ) ∧ (2 ^ 52 + F : ℚ) * 2 ^ (-53 : ℤ) < 1 := by
  have h1 : (0 : ℚ) ≤ F := by positivity
  have h2 : (F : ℚ) < 2 ^ 52 := by exact_mod_cast hF
  have hp : (0 : ℚ) < 2 ^ (-53 : ℤ) := by positivity
  have h52 : (2 : ℚ) ^ 52 * 2 ^ (-53 : ℤ) = 1 / 2 := by norm_num
  have h53 : ((2 : ℚ) ^ 52 + 2 ^ 52) * 2 ^ (-53 : ℤ) = 1 := by norm_num
  constructor
  · rw [← h52]
    exact mul_le_mul_of_nonneg_right (by linarith) hp.le
  · rw [← h53]
    exact mul_lt_mul_of_pos_right (by linarith) hp

/-- The magnitude of a finite nonzero double, through the decomposition the
encoder obtains from `frexp`. -/
theorem abs_decomp (v : Double) (h : v.finiteNonzero = true) :
    |v.toRat| = ((2 ^ 52 + (frexp v.fabs).1.frac : ℚ) * 2 ^ (-53 : ℤ)) * 2 ^ (frexp v.fabs).2 := by
  obtain ⟨he, -, hval, -, -⟩ := frexp_spec v.fabs (by rw [finiteNonzero_fabs]; exact h)
  rw [abs_toRat, ← absRat_fabs, hval, absRat_of_expo_1022 _ he]

theorem decomp_bounds (fr : ℚ) (ex : ℤ) (h1 : 1 / 2 ≤ fr) (h2 : fr < 1) :
    (2 : ℚ) ^ (ex - 1) ≤ fr * 2 ^ ex ∧ fr * 2 ^ ex < (2 : ℚ) ^ ex := by
  have hp : (0 : ℚ) < 2 ^ ex := by positivity
  constructor
  · rw [zpow_sub_one₀ (by norm_num), mul_comm]
    apply mul_le_mul_of_nonneg_right _ hp.le
    norm_num
    linarith
  · calc fr * 2 ^ ex < 1 * 2 ^ ex := mul_lt_mul_of_pos_right h2 hp
      _ = 2 ^ ex := one_mul _

/-- A positive rational has one decomposition `fr × 2^ex` with `fr` in
`[1/2, 1)`. -/
theorem decomp_unique (fr fr2 : ℚ) (ex ex2 : ℤ) (h1 : 1 / 2 ≤ fr) (h2 : fr < 1)
    (h3 : 1 / 2 ≤ fr2) (h4 : fr2 < 1) (heq : fr * 2 ^ ex = fr2 * 2 ^ ex2) :
    ex = ex2 ∧ fr = fr2 := by
  obtain ⟨a1, a2⟩ := decomp_bounds fr ex h1 h2
  obtain ⟨b1, b2⟩ := decomp_bounds fr2 ex2 h3 h4
  rw [heq] at a1 a2
  have c1 : ex - 1 < ex2 := (zpow_lt_zpow_iff_right₀ (by norm_num : (1 : ℚ) < 2)).1
    (lt_of_le_of_lt a1 b2)
  have c2 : ex2 - 1 < ex := (zpow_lt_zpow_iff_right₀ (by norm_num : (1 : ℚ) < 2)).1
    (lt_of_le_of_lt b1 a2)
  have hex : ex = ex2 := by omega
  refine ⟨hex, ?_⟩
  subst hex
  have hp : (2 : ℚ) ^ ex ≠ 0 := by positivity
  exact mul_right_cancel₀ hp heq

/-- Any decomposition `|v| = fr × 2^ex` with `fr` in `[1/2, 1)` is the one
`frexp` returns. -/
theorem decomp_eq_frexp (v : Double) (h : v.finiteNonzero = true) (fr : ℚ) (ex : ℤ)
    (h1 : 1 / 2 ≤ fr) (h2 : fr < 1) (hdec : |v.toRat| = fr * 2 ^ ex) :
    ex = (frexp v.fabs).2 ∧ fr = (2 ^ 52 + (frexp v.fabs).1.frac : ℚ) * 2 ^ (-53 : ℤ) := by
  obtain ⟨b1, b2⟩ := frac_bounds (frexp v.fabs).1.frac (frexp v.fabs).1.frac_lt
  exact decomp_unique _ _ _ _ h1 h2 b1 b2 (by rw [← hdec, ← abs_decomp v h])

/-- The double `1.5`. -/
theorem toRat_three_halves : (ofFields false 1023 (2 ^ 51)).toRat = 3 / 2 := by
  simp only [ofFields, toRat, absRat]
  norm_num

/-! ## The claims -/

/-- C1: general case of `toCustomFloat` (H = 15, M = 24, bias 16383).  For every
finite nonzero double `v`, writing `|v| = fr × 2^ex` with `fr` in `[1/2, 1)`
(the `frexp` decomposition), the returned record has
`exponent = ex + EXPONENT_BIAS − 1` with `EXPONENT_BIAS = 16383`, and
`mantissa = ⌊(fr − 1/2) × 2^24⌋`. -/
theorem C1_general_case (v : Double) (hv : v.finiteNonzero = true) (fr : ℚ) (ex : ℤ)
    (h1 : 1 / 2 ≤ fr) (h2 : fr < 1) (hdec : |v.toRat| = fr * 2 ^ ex) :
    EXPONENT_BIAS = 16383 ∧
      ((toCustomFloat v).exponent : ℤ) = ex + EXPONENT_BIAS - 1 ∧
      ((toCustomFloat v).mantissa : ℤ) = ⌊(fr - 1 / 2) * 2 ^ M_SIZE⌋ := by
  obtain ⟨-, he, hm⟩ := toCustomFloat_general v hv
  obtain ⟨hex, hfr⟩ := decomp_eq_frexp v hv fr ex h1 h2 hdec
  refine ⟨EXPONENT_BIAS_eq, ?_, ?_⟩
  · rw [he, hex, EXPONENT_BIAS_eq]; ring
  · rw [hm, ← floor_mul_zpow, hfr]
    congr 1
    simp only [M_SIZE]
    have h52 : (2 : ℚ) ^ 52 * 2 ^ (-53 : ℤ) = 1 / 2 := by norm_num
    have h29 : (2 : ℚ) ^ (-53 : ℤ) * 2 ^ 24 = 2 ^ (-29 : ℤ) := by norm_num
    rw [add_mul, h52, add_sub_cancel_left, mul_assoc, h29]

/-- C1 at `v = 1.5 = 0.75 × 2^1`: exponent 16383, mantissa `⌊0.25 × 2^24⌋`. -/
theorem C1_general_case_witness :
    (ofFields false 1023 (2 ^ 51)).finiteNonzero = true ∧
      (EXPONENT_BIAS = 16383 ∧
      ((toCustomFloat (ofFields false 1023 (2 ^ 51))).exponent : ℤ) = 1 + EXPONENT_BIAS - 1 ∧
      ((toCustomFloat (ofFields false 1023 (2 ^ 51))).mantissa : ℤ)
        = ⌊((3 / 4 : ℚ) - 1 / 2) * 2 ^ M_SIZE⌋) :=
  ⟨by decide, C1_general_case (ofFields false 1023 (2 ^ 51)) (by decide) (3 / 4) 1
    (by norm_num) (by norm_num) (by rw [toRat_three_halves]; norm_num)⟩

/-- C2: the exponent field stores the biased power-of-two exponent, with bias
`2^(H−1) − 1 = 16383`.  For every finite nonzero double `v` (subnormal doubles
included) and `e = toCustomFloat(v).exponent`:
`2^(e − 16383) ≤ |v| < 2^(e − 16383 + 1)`, that is `e − 16383 = ⌊log2 |v|⌋`. -/
theorem C2_exponent_biased_floor_log2 (v : Double) (hv : v.finiteNonzero = true) :
    EXPONENT_BIAS = 2 ^ (H_SIZE - 1) - 1 ∧ EXPONENT_BIAS = 16383 ∧
      (2 : ℚ) ^ (((toCustomFloat v).exponent : ℤ) - 16383) ≤ |v.toRat| ∧
      |v.toRat| < (2 : ℚ) ^ (((toCustomFloat v).exponent : ℤ) - 16383 + 1) ∧
      ((toCustomFloat v).exponent : ℤ) - 16383 = Int.log 2 |v.toRat| := by
  obtain ⟨-, he, -⟩ := toCustomFloat_general v hv
  obtain ⟨b1, b2⟩ := frac_bounds (frexp v.fabs).1.frac (frexp v.fabs).1.frac_lt
  obtain ⟨c1, c2⟩ := decomp_bounds _ (frexp v.fabs).2 b1 b2
  rw [← abs_decomp v hv] at c1 c2
  have hk : ((toCustomFloat v).exponent : ℤ) - 16383 = (frexp v.fabs).2 - 1 := by
    rw [he]; ring
  have hk1 : ((toCustomFloat v).exponent : ℤ) - 16383 + 1 = (frexp v.fabs).2 := by
    rw [he]; ring
  refine ⟨by decide, EXPONENT_BIAS_eq, ?_, ?_, ?_⟩
  · rw [hk]; exact c1
  · rw [hk1]; exact c2
  · rw [hk]
    exact (log_eq_of_bounds _ _ c1 (by rw [sub_add_cancel]; exact c2)).symm

/-- C2 at the subnormal double `3 × 2^-1074`. -/
theorem C2_exponent_biased_floor_log2_witness :
    (ofFields false 0 3).finiteNonzero = true ∧
      (2 : ℚ) ^ (((toCustomFloat (ofFields false 0 3)).exponent : ℤ) - 16383)
        ≤ |(ofFields false 0 3).toRat| :=
  ⟨by decide, (C2_exponent_biased_floor_log2 (ofFields false 0 3) (by decide)).2.2.1⟩

/-- C3 (the code at `v = 1.5`): the record has exponent 16383, so the normalised
significand is `s = 1.5 / 2^0 = 1.5` and `⌊(s − 1) × 2^24⌋ = 8388608`, while the
stored mantissa is `4194304 = ⌊(s − 1) × 2^23⌋`: the stored field is half of
what the claim states. -/
theorem C3_mantissa_at_three_halves :
    toCustomFloat (ofFields false 1023 (2 ^ 51)) = ⟨false, 16383, 4194304⟩ ∧
      ⌊(|(ofFields false 1023 (2 ^ 51)).toRat| / 2 ^ ((16383 : ℤ) - 16383) - 1) * 2 ^ 24⌋
        = 8388608 ∧
      ⌊(|(ofFields false 1023 (2 ^ 51)).toRat| / 2 ^ ((16383 : ℤ) - 16383) - 1) * 2 ^ 23⌋
        = 4194304 := by
  refine ⟨?_, ?_, ?_⟩
  · rw [toCustomFloat_normal _ (by decide) (by decide)]
    decide
  · rw [toRat_three_halves]
    have : ((|(3 / 2 : ℚ)| / 2 ^ ((16383 : ℤ) - 16383) - 1) * 2 ^ 24) = ((8388608 : ℤ) : ℚ) := by
      rw [abs_of_pos (by norm_num)]; norm_num
    rw [this, Int.floor_intCast]
  · rw [toRat_three_halves]
    have : ((|(3 / 2 : ℚ)| / 2 ^ ((16383 : ℤ) - 16383) - 1) * 2 ^ 23) = ((4194304 : ℤ) : ℚ) := by
      rw [abs_of_pos (by norm_num)]; norm_num
    rw [this, Int.floor_intCast]

/-- What the code stores, in the terms of C3: for every finite nonzero double `v`
with `r = toCustomFloat(v)` and `s = |v| / 2^(r.exponent − 16383)`, `s` lies in
`[1, 2)` and `r.mantissa = ⌊(s − 1) × 2^23⌋`. -/
theorem mantissa_of_significand (v : Double) (hv : v.finiteNonzero = true) :
    1 ≤ |v.toRat| / 2 ^ (((toCustomFloat v).exponent : ℤ) - 16383) ∧
      |v.toRat| / 2 ^ (((toCustomFloat v).exponent : ℤ) - 16383) < 2 ∧
      ((toCustomFloat v).mantissa : ℤ)
        = ⌊(|v.toRat| / 2 ^ (((toCustomFloat v).exponent : ℤ) - 16383) - 1) * 2 ^ 23⌋ := by
  obtain ⟨-, he, hm⟩ := toCustomFloat_general v hv
  obtain ⟨b1, b2⟩ := frac_bounds (frexp v.fabs).1.frac (frexp v.fabs).1.frac_lt
  have hk : ((toCustomFloat v).exponent : ℤ) - 16383 = (frexp v.fabs).2 - 1 := by
    rw [he]; ring
  have hp : (2 : ℚ) ^ (frexp v.fabs).2 ≠ 0 := by positivity
  have hs : |v.toRat| / 2 ^ (((toCustomFloat v).exponent : ℤ) - 16383)
      = 2 * ((2 ^ 52 + (frexp v.fabs).1.frac : ℚ) * 2 ^ (-53 : ℤ)) := by
    rw [hk, abs_decomp v hv, zpow_sub_one₀ (by norm_num)]
    field_simp
    ring
  rw [hs]
  refine ⟨?_, ?_, ?_⟩
  · generalize (2 ^ 52 + (frexp v.fabs).1.frac : ℚ) * 2 ^ (-53 : ℤ) = x at b1 b2
    linarith
  · generalize (2 ^ 52 + (frexp v.fabs).1.frac : ℚ) * 2 ^ (-53 : ℤ) = x at b1 b2
    linarith
  rw [hm, ← floor_mul_zpow]
  congr 1
  have h52 : (2 : ℚ) ^ 52 * 2 ^ (-53 : ℤ) = 1 / 2 := by norm_num
  have h29 : (2 : ℚ) * 2 ^ (-53 : ℤ) * 2 ^ 23 = 2 ^ (-29 : ℤ) := by norm_num
  rw [add_mul, h52, ← h29]
  ring

/-- A double magnitude with at most 24 significant bits has the low 29 bits of
its normalised fraction field clear. -/
theorem frac_dvd_of_short (F n : ℕ) (X c : ℤ) (hn : n < 2 ^ 24)
    (heq : ((2 ^ 52 + F : ℚ) * 2 ^ (-53 : ℤ)) * 2 ^ X = (n : ℚ) * 2 ^ c) :
    2 ^ 29 ∣ F := by
  have hN : ((2 ^ 52 + F : ℕ) : ℚ) = (n : ℚ) * 2 ^ (c + 53 - X) := by
    have h1 : (n : ℚ) * 2 ^ (c + 53 - X) = ((n : ℚ) * 2 ^ c) * 2 ^ (53 - X) := by
      rw [mul_assoc, ← zpow_add₀ (by norm_num)]; congr 2; ring
    rw [h1, ← heq, mul_assoc, mul_assoc, ← zpow_add₀ (by norm_num), ← zpow_add₀ (by norm_num)]
    have : (-53 : ℤ) + (X + (53 - X)) = 0 := by ring
    rw [this]; push_cast; norm_num
  have hj : 29 ≤ c + 53 - X := by
    by_contra hlt
    have h28 : c + 53 - X ≤ 28 := by omega
    have hz : (2 : ℚ) ^ (c + 53 - X) ≤ 2 ^ (28 : ℤ) := zpow_le_zpow_right₀ (by norm_num) h28
    have hnq : (n : ℚ) < 2 ^ 24 := by exact_mod_cast hn
    have hn0 : (0 : ℚ) ≤ n := by positivity
    have : ((2 ^ 52 + F : ℕ) : ℚ) < 2 ^ 52 := by
      rw [hN]
      calc (n : ℚ) * 2 ^ (c + 53 - X) ≤ (n : ℚ) * 2 ^ (28 : ℤ) :=
            mul_le_mul_of_nonneg_left hz hn0
        _ < 2 ^ 24 * 2 ^ (28 : ℤ) := mul_lt_mul_of_pos_right hnq (by positivity)
        _ = 2 ^ 52 := by norm_num
    have h2 : (2 ^ 52 + F : ℕ) < 2 ^ 52 := by exact_mod_cast this
    omega
  obtain ⟨j, hjeq⟩ : ∃ j : ℕ, c + 53 - X = (j : ℤ) + 29 := ⟨(c + 53 - X - 29).toNat, by omega⟩
  rw [hjeq] at hN
  have hNat : 2 ^ 52 + F = n * 2 ^ (j + 29) := by
    have : ((2 ^ 52 + F : ℕ) : ℚ) = ((n * 2 ^ (j + 29) : ℕ) : ℚ) := by
      rw [hN]; push_cast
      rw [← zpow_natCast]; push_cast; rfl
    exact_mod_cast this
  have hd : 2 ^ 29 ∣ 2 ^ 52 + F := by
    rw [hNat, pow_add, ← mul_assoc]
    exact Dvd.intro_left _ rfl
  exact (Nat.dvd_add_right (pow_dvd_pow 2 (by norm_num))).1 hd

/-- C4: the mantissa is truncated toward zero, never rounded, relative to the
implicit `0.5` term.  For every finite nonzero double `v`, with
`r = toCustomFloat(v)`, `m = r.mantissa` and `k = r.exponent − 16383 + 1`:
`(0.5 + m / 2^24) × 2^k ≤ |v| < (0.5 + (m + 1) / 2^24) × 2^k`, and the left
inequality is an equality whenever `|v|` has at most 24 significant bits
(`|v| = n × 2^c` with `n < 2^24`). -/
theorem C4_mantissa_truncated (v : Double) (hv : v.finiteNonzero = true) :
    (1 / 2 + ((toCustomFloat v).mantissa : ℚ) / 2 ^ 24)
        * 2 ^ (((toCustomFloat v).exponent : ℤ) - 16383 + 1) ≤ |v.toRat| ∧
      |v.toRat| < (1 / 2 + (((toCustomFloat v).mantissa : ℚ) + 1) / 2 ^ 24)
        * 2 ^ (((toCustomFloat v).exponent : ℤ) - 16383 + 1) ∧
      ∀ (n : ℕ) (c : ℤ), n < 2 ^ 24 → |v.toRat| = (n : ℚ) * 2 ^ c →
        (1 / 2 + ((toCustomFloat v).mantissa : ℚ) / 2 ^ 24)
          * 2 ^ (((toCustomFloat v).exponent : ℤ) - 16383 + 1) = |v.toRat| := by
  obtain ⟨-, he, hm⟩ := toCustomFloat_general v hv
  have hk1 : ((toCustomFloat v).exponent : ℤ) - 16383 + 1 = (frexp v.fabs).2 := by
    rw [he]; ring
  have hF := (frexp v.fabs).1.frac_lt
  have hdec := abs_decomp v hv
  rw [hk1, hm, hdec]
  generalize (frexp v.fabs).1.frac = F at hF hdec
  generalize (frexp v.fabs).2 = X at hdec
  have hp : (0 : ℚ) < 2 ^ X := by positivity
  have hfr : (2 ^ 52 + F : ℚ) * 2 ^ (-53 : ℤ) = 1 / 2 + (F : ℚ) / 2 ^ 53 := by
    rw [add_mul, zpow_neg]; norm_num; ring
  have hlo : ((F / 2 ^ 29 : ℕ) : ℚ) * 2 ^ 29 ≤ F := by
    exact_mod_cast Nat.div_mul_le_self F (2 ^ 29)
  have hhi : (F : ℚ) < (((F / 2 ^ 29 : ℕ) : ℚ) + 1) * 2 ^ 29 := by
    have : F < (F / 2 ^ 29 + 1) * 2 ^ 29 := by
      have := Nat.lt_div_mul_add (a := F) (b := 2 ^ 29) (by norm_num)
      linarith
    exact_mod_cast this
  rw [hfr]
  refine ⟨?_, ?_, ?_⟩
  · apply mul_le_mul_of_nonneg_right _ hp.le
    generalize ((F / 2 ^ 29 : ℕ) : ℚ) = m at hlo hhi
    generalize (F : ℚ) = f at hlo hhi
    norm_num at hlo ⊢
    linarith
  · apply mul_lt_mul_of_pos_right _ hp
    generalize ((F / 2 ^ 29 : ℕ) : ℚ) = m at hlo hhi
    generalize (F : ℚ) = f at hlo hhi
    norm_num at hhi ⊢
    linarith
  · intro n c hn hnc
    rw [← hfr] at hnc
    have hdvd := frac_dvd_of_short F n X c hn hnc
    have hmul : ((F / 2 ^ 29 : ℕ) : ℚ) * 2 ^ 29 = F := by
      exact_mod_cast Nat.div_mul_cancel hdvd
    congr 1
    rw [← hmul]
    norm_num
    ring

/-- C4 at `v = 1.5 = 3 × 2^-1`, a magnitude of two significant bits. -/
theorem C4_mantissa_truncated_witness :
    (ofFields false 1023 (2 ^ 51)).finiteNonzero = true ∧
      (1 / 2 + ((toCustomFloat (ofFields false 1023 (2 ^ 51))).mantissa : ℚ) / 2 ^ 24)
        * 2 ^ (((toCustomFloat (ofFields false 1023 (2 ^ 51))).exponent : ℤ) - 16383 + 1)
        = |(ofFields false 1023 (2 ^ 51)).toRat| :=
  ⟨by decide, (C4_mantissa_truncated (ofFields false 1023 (2 ^ 51)) (by decide)).2.2 3 (-1)
    (by norm_num) (by rw [toRat_three_halves]; norm_num)⟩

/-! ## The special branches -/

theorem toCustomFloat_nan (v : Double) (h : v.isnan = true) :
    toCustomFloat v = ⟨false, 32767, 1⟩ := by
  simp only [toCustomFloat, h, if_true]
  rfl

theorem toCustomFloat_inf (v : Double) (h : v.isinf = true) :
    toCustomFloat v = ⟨v.sign, 32767, 0⟩ := by
  have hn : v.isnan = false := by
    simp only [isinf, isnan, Bool.and_eq_true, beq_iff_eq] at h ⊢
    simp [h.2]
  simp only [toCustomFloat, hn, h, if_true, Bool.false_eq_true, if_false]
  rfl

theorem toCustomFloat_zero (v : Double) (h : v.isZero = true) :
    toCustomFloat v = ⟨v.sign, 0, 0⟩ := by
  have he : v.expo = 0 := by
    simp only [isZero, Bool.and_eq_true, beq_iff_eq] at h; exact h.1
  have hn : v.isnan = false := by simp [isnan, he]
  have hi : v.isinf = false := by simp [isinf, he]
  simp only [toCustomFloat, hn, hi, h, if_true, Bool.false_eq_true, if_false]
  rfl

/-- Every double is a NaN, an infinity, a zero, or finite and nonzero. -/
theorem classify (v : Double) :
    v.isnan = true ∨ v.isinf = true ∨ v.isZero = true ∨ v.finiteNonzero = true := by
  unfold finiteNonzero
  cases v.isnan <;> cases v.isinf <;> cases v.isZero <;> simp

/-- The exponent an encoded finite nonzero double gets lies in `[15309, 17406]`
and its mantissa is below `2^23`. -/
theorem general_ranges (v : Double) (h : v.finiteNonzero = true) :
    15309 ≤ (toCustomFloat v).exponent ∧ (toCustomFloat v).exponent ≤ 17406 ∧
      (toCustomFloat v).mantissa < 2 ^ 23 := by
  obtain ⟨-, he, hm⟩ := toCustomFloat_general v h
  obtain ⟨-, -, -, hlo, hhi⟩ := frexp_spec v.fabs (by rw [finiteNonzero_fabs]; exact h)
  refine ⟨by omega, by omega, ?_⟩
  rw [hm]
  apply Nat.div_lt_of_lt_mul
  calc (frexp v.fabs).1.frac < 2 ^ 52 := (frexp v.fabs).1.frac_lt
    _ = 2 ^ 29 * 2 ^ 23 := by norm_num

/-- C5: the special-value markers classify the input exactly.  For every double
`v` with `r = toCustomFloat(v)`: `r.exponent = 32767 ∧ r.mantissa = 0` iff `v` is
an infinity; `r.exponent = 32767 ∧ r.mantissa ≠ 0` iff `v` is a NaN;
`r.exponent = 0 ∧ r.mantissa = 0` iff `v` is a zero.  In particular a finite
nonzero input gets neither the all-ones exponent nor the zero encoding. -/
theorem C5_special_markers_exact (v : Double) :
    (((toCustomFloat v).exponent = 32767 ∧ (toCustomFloat v).mantissa = 0) ↔ v.isinf = true) ∧
      (((toCustomFloat v).exponent = 32767 ∧ (toCustomFloat v).mantissa ≠ 0) ↔ v.isnan = true) ∧
      (((toCustomFloat v).exponent = 0 ∧ (toCustomFloat v).mantissa = 0) ↔ v.isZero = true) ∧
      (v.finiteNonzero = true → (toCustomFloat v).exponent ≠ 32767 ∧
        ¬ ((toCustomFloat v).exponent = 0 ∧ (toCustomFloat v).mantissa = 0)) := by
  rcases classify v with h | h | h | h
  · have hi : v.isinf = false := by
      simp only [isnan, isinf, Bool.and_eq_true, beq_iff_eq, bne_iff_ne] at h ⊢
      simp [h.2]
    have hz : v.isZero = false := by
      simp only [isnan, Bool.and_eq_true, beq_iff_eq] at h
      simp [isZero, h.1]
    have hf : v.finiteNonzero = false := by simp [finiteNonzero, h]
    rw [toCustomFloat_nan v h, h, hi, hz, hf]
    simp
  · have hn : v.isnan = false := by
      simp only [isnan, isinf, Bool.and_eq_true, beq_iff_eq] at h ⊢
      simp [h.2]
    have hz : v.isZero = false := by
      simp only [isinf, Bool.and_eq_true, beq_iff_eq] at h
      simp [isZero, h.1]
    have hf : v.finiteNonzero = false := by simp [finiteNonzero, h]
    rw [toCustomFloat_inf v h, h, hn, hz, hf]
    simp
  · have he : v.expo = 0 := by
      simp only [isZero, Bool.and_eq_true, beq_iff_eq] at h; exact h.1
    have hn : v.isnan = false := by simp [isnan, he]
    have hi : v.isinf = false := by simp [isinf, he]
    have hf : v.finiteNonzero = false := by simp [finiteNonzero, h]
    rw [toCustomFloat_zero v h, h, hn, hi, hf]
    simp
  · obtain ⟨r1, r2, -⟩ := general_ranges v h
    have h' := h
    simp only [finiteNonzero, Bool.and_eq_true, Bool.not_eq_true'] at h'
    obtain ⟨⟨hn, hi⟩, hz⟩ := h'
    rw [hn, hi, hz]
    refine ⟨?_, ?_, ?_, ?_⟩
    · constructor
      · rintro ⟨a, -⟩; omega
      · intro a; exact absurd a (by simp)
    · constructor
      · rintro ⟨a, -⟩; omega
      · intro a; exact absurd a (by simp)
    · constructor
      · rintro ⟨a, -⟩; omega
      · intro a; exact absurd a (by simp)
    · intro _
      exact ⟨by omega, fun a => by omega⟩

/-- C6: field widths are respected for every input.  For every double `v`,
`toCustomFloat(v).exponent ≤ 2^15 − 1` and `toCustomFloat(v).mantissa ≤ 2^24 − 1`,
so the 15 bits and 24 bits kept by the `bitset`s of `printCustomFloat` are the
whole of each field. -/
theorem C6_field_widths (v : Double) :
    (toCustomFloat v).exponent ≤ 2 ^ H_SIZE - 1 ∧ (toCustomFloat v).mantissa ≤ 2 ^ M_SIZE - 1 ∧
      bitset H_SIZE (toCustomFloat v).exponent = (toCustomFloat v).exponent ∧
      bitset M_SIZE (toCustomFloat v).mantissa = (toCustomFloat v).mantissa := by
  have key : (toCustomFloat v).exponent < 2 ^ 15 ∧ (toCustomFloat v).mantissa < 2 ^ 24 := by
    rcases classify v with h | h | h | h
    · rw [toCustomFloat_nan v h]; exact ⟨by norm_num, by norm_num⟩
    · rw [toCustomFloat_inf v h]; exact ⟨by norm_num, by norm_num⟩
    · rw [toCustomFloat_zero v h]; exact ⟨by norm_num, by norm_num⟩
    · obtain ⟨-, r2, r3⟩ := general_ranges v h
      exact ⟨by omega, by omega⟩
  obtain ⟨k1, k2⟩ := key
  simp only [H_SIZE, M_SIZE, bitset]
  exact ⟨by omega, by omega, Nat.mod_eq_of_lt k1, Nat.mod_eq_of_lt k2⟩

/-- C7: monotonicity in magnitude.  For all finite nonzero doubles `x`, `y` with
`|x| ≤ |y|`, the exponent field of `x` is at most that of `y`, and when the two
exponent fields are equal the mantissa field of `x` is at most that of `y`. -/
theorem C7_monotone_in_magnitude (x y : Double) (hx : x.finiteNonzero = true)
    (hy : y.finiteNonzero = true) (hle : |x.toRat| ≤ |y.toRat|) :
    (toCustomFloat x).exponent ≤ (toCustomFloat y).exponent ∧
      ((toCustomFloat x).exponent = (toCustomFloat y).exponent →
        (toCustomFloat x).mantissa ≤ (toCustomFloat y).mantissa) := by
  obtain ⟨-, hex, hmx⟩ := toCustomFloat_general x hx
  obtain ⟨-, hey, hmy⟩ := toCustomFloat_general y hy
  obtain ⟨a1, a2⟩ := frac_bounds (frexp x.fabs).1.frac (frexp x.fabs).1.frac_lt
  obtain ⟨b1, b2⟩ := frac_bounds (frexp y.fabs).1.frac (frexp y.fabs).1.frac_lt
  obtain ⟨c1, -⟩ := decomp_bounds _ (frexp x.fabs).2 a1 a2
  obtain ⟨-, d2⟩ := decomp_bounds _ (frexp y.fabs).2 b1 b2
  have hdx := abs_decomp x hx
  have hdy := abs_decomp y hy
  rw [← hdx] at c1
  rw [← hdy] at d2
  have hX : (frexp x.fabs).2 ≤ (frexp y.fabs).2 := by
    have : (frexp x.fabs).2 - 1 < (frexp y.fabs).2 :=
      (zpow_lt_zpow_iff_right₀ (by norm_num : (1 : ℚ) < 2)).1
        (lt_of_le_of_lt c1 (lt_of_le_of_lt hle d2))
    omega
  refine ⟨by omega, fun heq => ?_⟩
  have hXeq : (frexp x.fabs).2 = (frexp y.fabs).2 := by
    rw [heq] at hex; omega
  rw [hdx, hdy, hXeq] at hle
  have hp : (0 : ℚ) < 2 ^ (frexp y.fabs).2 := by positivity
  have h1 := le_of_mul_le_mul_right hle hp
  have h2 := le_of_mul_le_mul_right h1 (by positivity : (0 : ℚ) < 2 ^ (-53 : ℤ))
  have h3 : (frexp x.fabs).1.frac ≤ (frexp y.fabs).1.frac := by
    have : ((frexp x.fabs).1.frac : ℚ) ≤ (frexp y.fabs).1.frac := by linarith
    exact_mod_cast this
  rw [hmx, hmy]
  exact Nat.div_le_div_right h3

/-- C7 at `x = 1.0`, `y = 1.5`. -/
theorem C7_monotone_in_magnitude_witness :
    |one.toRat| ≤ |(ofFields false 1023 (2 ^ 51)).toRat| ∧
      (toCustomFloat one).exponent ≤ (toCustomFloat (ofFields false 1023 (2 ^ 51))).exponent :=
  have hle : |one.toRat| ≤ |(ofFields false 1023 (2 ^ 51)).toRat| := by
    have h1 : one.toRat = 1 := by
      simp only [one, ofFields, toRat, absRat]
      norm_num
    rw [h1, toRat_three_halves, abs_one, abs_of_pos (by norm_num : (0 : ℚ) < 3 / 2)]
    norm_num
  ⟨hle, (C7_monotone_in_magnitude one (ofFields false 1023 (2 ^ 51)) (by decide) (by decide)
    hle).1⟩

theorem toRat_neg (v : Double) : v.neg.toRat = -v.toRat := by
  have habs : v.neg.absRat = v.absRat := rfl
  have hsign : v.neg.sign = !v.sign := rfl
  simp only [toRat, habs, hsign]
  cases v.sign <;> simp

/-- C8: sign preservation.  For every finite nonzero double `v`,
`toCustomFloat(v).sign = signbit(v)`, which is true exactly when `v < 0`, and
the exponent and mantissa fields of `toCustomFloat(v)` and `toCustomFloat(−v)`
are identical (`−v` being the double of opposite value). -/
theorem C8_sign_preserved (v : Double) (hv : v.finiteNonzero = true) :
    (toCustomFloat v).sign = v.signbit ∧ (v.signbit = true ↔ v.toRat < 0) ∧
      v.neg.toRat = -v.toRat ∧
      (toCustomFloat v.neg).exponent = (toCustomFloat v).exponent ∧
      (toCustomFloat v.neg).mantissa = (toCustomFloat v).mantissa := by
  have hnz : v.isZero = false := ((finiteNonzero_iff v).1 hv).2
  have hneg : v.neg.finiteNonzero = true := hv
  obtain ⟨hs, he, hm⟩ := toCustomFloat_general v hv
  obtain ⟨-, he2, hm2⟩ := toCustomFloat_general v.neg hneg
  have hfabs : v.neg.fabs = v.fabs := rfl
  rw [hfabs] at he2 hm2
  refine ⟨hs, (toRat_neg_iff v hnz).symm, toRat_neg v, ?_, ?_⟩
  · have : ((toCustomFloat v.neg).exponent : ℤ) = (toCustomFloat v).exponent := by
      rw [he, he2]
    exact_mod_cast this
  · rw [hm, hm2]

/-- C8 at `v = −1.5`. -/
theorem C8_sign_preserved_witness :
    (ofFields true 1023 (2 ^ 51)).finiteNonzero = true ∧
      (toCustomFloat (ofFields true 1023 (2 ^ 51))).sign = true :=
  ⟨by decide, (C8_sign_preserved (ofFields true 1023 (2 ^ 51)) (by decide)).1⟩

/-- C9: powers of two encode with an empty mantissa.  For every finite double
`v` whose value is `2^k` for an integer `k`, `toCustomFloat(v)` has `sign = false`,
`exponent = k + 16383` and `mantissa = 0`; and
`toCustomFloat(1.0) = {sign = false, exponent = 16383, mantissa = 0}`. -/
theorem C9_powers_of_two (v : Double) (k : ℤ) (hfin : v.isfinite = true)
    (hval : v.toRat = (2 : ℚ) ^ k) :
    (toCustomFloat v).sign = false ∧ ((toCustomFloat v).exponent : ℤ) = k + 16383 ∧
      (toCustomFloat v).mantissa = 0 ∧ toCustomFloat one = ⟨false, 16383, 0⟩ := by
  have hpos : (0 : ℚ) < v.toRat := by rw [hval]; positivity
  have hexpo : v.expo ≠ 2047 := by
    simpa [isfinite] using hfin
  have hnz : v.isZero = false := by
    by_contra hz
    have hz2 : v.isZero = true := by simpa using hz
    simp only [isZero, Bool.and_eq_true, beq_iff_eq] at hz2
    have : v.toRat = 0 := by
      simp [toRat, absRat, hz2.1, hz2.2]
    linarith
  have hv : v.finiteNonzero = true := (finiteNonzero_iff v).2 ⟨hexpo, hnz⟩
  have hsign : v.sign = false := by
    by_contra hs
    have hs2 : v.sign = true := by simpa using hs
    have := (toRat_neg_iff v hnz).2 hs2
    linarith
  obtain ⟨hs, he, hm⟩ := toCustomFloat_general v hv
  have hdec : |v.toRat| = (1 / 2 : ℚ) * 2 ^ (k + 1) := by
    rw [abs_of_pos hpos, hval, zpow_add_one₀ (by norm_num)]
    ring
  obtain ⟨hex, hfr⟩ := decomp_eq_frexp v hv (1 / 2) (k + 1) le_rfl (by norm_num) hdec
  have hF : (frexp v.fabs).1.frac = 0 := by
    have h52 : (2 : ℚ) ^ 52 * 2 ^ (-53 : ℤ) = 1 / 2 := by norm_num
    rw [add_mul, h52] at hfr
    have h0 : ((frexp v.fabs).1.frac : ℚ) * 2 ^ (-53 : ℤ) = 0 := self_eq_add_right.1 hfr
    have hp : (2 : ℚ) ^ (-53 : ℤ) ≠ 0 := by positivity
    have := (mul_eq_zero.1 h0).resolve_right hp
    exact_mod_cast this
  refine ⟨by rw [hs, hsign], by rw [he, ← hex]; ring, by rw [hm, hF]; rfl, ?_⟩
  rw [toCustomFloat_normal _ (by decide) (by decide)]
  decide

/-- C9 at the smallest power of two a double holds, `2^-1074`. -/
theorem C9_powers_of_two_witness :
    (ofFields false 0 1).toRat = (2 : ℚ) ^ (-1074 : ℤ) ∧
      ((toCustomFloat (ofFields false 0 1)).exponent : ℤ) = -1074 + 16383 :=
  have hval : (ofFields false 0 1).toRat = (2 : ℚ) ^ (-1074 : ℤ) := by
    simp only [ofFields, toRat, absRat]
    norm_num
  ⟨hval, (C9_powers_of_two (ofFields false 0 1) (-1074) (by decide) hval).2.1⟩

/-- C10: NaN canonicalisation.  For every NaN input (any sign bit, any payload)
`toCustomFloat` returns exactly `{sign = false, exponent = 32767, mantissa = 1}`:
the NaN test comes first, so no later branch sees a NaN. -/
theorem C10_nan_canonical (v : Double) (hnan : v.isnan = true) :
    toCustomFloat v = ⟨false, 32767, 1⟩ ∧ v.isinf = false ∧ v.isZero = false ∧
      v.finiteNonzero = false := by
  have h := hnan
  simp only [isnan, Bool.and_eq_true, beq_iff_eq, bne_iff_ne] at h
  refine ⟨toCustomFloat_nan v hnan, ?_, ?_, ?_⟩
  · simp [isinf, h.2]
  · simp [isZero, h.1]
  · simp [finiteNonzero, hnan]

/-- C10 at a NaN with the sign bit set and payload `12345`. -/
theorem C10_nan_canonical_witness :
    (ofFields true 2047 12345).isnan = true ∧
      toCustomFloat (ofFields true 2047 12345) = ⟨false, 32767, 1⟩ :=
  ⟨by decide, (C10_nan_canonical (ofFields true 2047 12345) (by decide)).1⟩

/-- C11: infinity.  `toCustomFloat(+infinity) = {sign = false, exponent = 32767,
mantissa = 0}` and `toCustomFloat(−infinity) = {sign = true, exponent = 32767,
mantissa = 0}`, where `−infinity` is the negation of `+infinity` (line 84). -/
theorem C11_infinity :
    (inf false).isinf = true ∧ (inf false).neg = inf true ∧
      toCustomFloat (inf false) = ⟨false, 32767, 0⟩ ∧
      toCustomFloat (inf false).neg = ⟨true, 32767, 0⟩ := by
  refine ⟨by decide, by decide, ?_, ?_⟩
  · rw [toCustomFloat_inf _ (by decide)]
    rfl
  · rw [toCustomFloat_inf _ (by decide)]
    rfl

/-- C12: signed zero.  `toCustomFloat(+0.0) = {sign = false, exponent = 0,
mantissa = 0}` and `toCustomFloat(−0.0) = {sign = true, exponent = 0,
mantissa = 0}`: the sign bit of negative zero is kept although the comparison
`−0.0 == 0.0` is true. -/
theorem C12_signed_zero :
    toCustomFloat (zero false) = ⟨false, 0, 0⟩ ∧ toCustomFloat (zero true) = ⟨true, 0, 0⟩ ∧
      (zero true).isZero = true ∧ (zero true).signbit = true := by
  refine ⟨?_, ?_, by decide, by decide⟩
  · rw [toCustomFloat_zero _ (by decide)]
    rfl
  · rw [toCustomFloat_zero _ (by decide)]
    rfl

/-- C13: `calculateF` throws `std::invalid_argument` if and only if both `a` and
`b` compare equal to zero (either signed zero); for every other pair of doubles
it returns a value. -/
theorem C13_calculateF_fails_iff_both_zero (a b : Double) :
    (calculateF a b = Except.error StdException.invalid_argument ↔
        (a.isZero = true ∧ b.isZero = true)) ∧
      ((a.isZero = false ∨ b.isZero = false) → ∃ r : Double, calculateF a b = Except.ok r) ∧
      ((a.isZero = true ∧ b.isZero = true) → ∀ r : Double, calculateF a b ≠ Except.ok r) := by
  unfold calculateF calculateFWith
  simp only [doubleArith]
  rcases ha : a.isZero with _ | _ <;> rcases hb : b.isZero with _ | _ <;> simp

/-! ## Evaluating double arithmetic -/

theorem round_eq (d : Double) (q : ℚ) (s0 : Bool) (hfin : d.expo ≠ 2047)
    (hnz : d.isZero = false) (h : d.toRat = q) : round q s0 = d := by
  rw [← h]
  exact round_toRat d hfin hnz s0

theorem round_zero (s0 : Bool) : round 0 s0 = zero s0 := by
  simp [Double.round]

theorem mul_finite (a b : Double) (ha : a.expo ≠ 2047) (hb : b.expo ≠ 2047) :
    mul a b = round (a.toRat * b.toRat) (xor a.sign b.sign) := by
  obtain ⟨h1, h2⟩ := not_special_of_expo a ha
  obtain ⟨h3, h4⟩ := not_special_of_expo b hb
  simp only [mul, h1, h2, h3, h4]
  rfl

theorem add_finite (a b : Double) (ha : a.expo ≠ 2047) (hb : b.expo ≠ 2047) :
    add a b = round (a.toRat + b.toRat) (a.sign && b.sign) := by
  obtain ⟨h1, h2⟩ := not_special_of_expo a ha
  obtain ⟨h3, h4⟩ := not_special_of_expo b hb
  simp only [add, h1, h2, h3, h4]
  rfl

theorem sub_finite (a b : Double) (ha : a.expo ≠ 2047) (hb : b.expo ≠ 2047) :
    sub a b = round (a.toRat - b.toRat) (a.sign && !b.sign) := by
  obtain ⟨h1, h2⟩ := not_special_of_expo a ha
  obtain ⟨h3, h4⟩ := not_special_of_expo b hb
  simp only [sub, h1, h2, h3, h4]
  rfl

theorem div_finite (a b : Double) (ha : a.expo ≠ 2047) (hb : b.expo ≠ 2047)
    (hbz : b.isZero = false) :
    div a b = round (a.toRat / b.toRat) (xor a.sign b.sign) := by
  obtain ⟨h1, h2⟩ := not_special_of_expo a ha
  obtain ⟨h3, h4⟩ := not_special_of_expo b hb
  simp only [div, h1, h2, h3, h4, hbz]
  rfl

theorem toRat_one : one.toRat = 1 := by
  simp only [one, ofFields, toRat, absRat]
  norm_num

theorem toRat_two : (ofFields false 1024 0).toRat = 2 := by
  simp only [ofFields, toRat, absRat]
  norm_num

theorem toRat_zero (s : Bool) : (zero s).toRat = 0 := by
  cases s <;> simp [zero, ofFields, toRat, absRat]

/-- The literal `2` of `calculateF`, converted to `double`. -/
theorem ofInt_two : ofInt 2 = ofFields false 1024 0 := by
  unfold ofInt
  exact round_eq _ _ _ (by decide) (by decide) (by rw [toRat_two]; norm_num)

/-- In double arithmetic `calculateF(1, 1)` is `1.0`. -/
theorem calculateF_one_one : calculateF one one = Except.ok one := by
  have h2a : mul (ofFields false 1024 0) one = ofFields false 1024 0 := by
    rw [mul_finite _ _ (by decide) (by decide), toRat_two, toRat_one]
    exact round_eq _ _ _ (by decide) (by decide) (by rw [toRat_two]; norm_num)
  have haa : mul one one = one := by
    rw [mul_finite _ _ (by decide) (by decide), toRat_one]
    exact round_eq _ _ _ (by decide) (by decide) (by rw [toRat_one]; norm_num)
  have hsum : add one one = ofFields false 1024 0 := by
    rw [add_finite _ _ (by decide) (by decide), toRat_one]
    exact round_eq _ _ _ (by decide) (by decide) (by rw [toRat_two]; norm_num)
  have hdiv : div (ofFields false 1024 0) (ofFields false 1024 0) = one := by
    rw [div_finite _ _ (by decide) (by decide) (by decide), toRat_two]
    exact round_eq _ _ _ (by decide) (by decide) (by rw [toRat_one]; norm_num)
  have hz : (one.isZero && one.isZero) = false := by decide
  simp only [calculateF, calculateFWith, doubleArith, hz, Bool.false_eq_true, if_false,
    ofInt_two, h2a, haa, hsum, hdiv]

/-- In double arithmetic `calculateF(1, 0)` is `+0.0`. -/
theorem calculateF_one_zero : calculateF one (zero false) = Except.ok (zero false) := by
  have h2a : mul (ofFields false 1024 0) one = ofFields false 1024 0 := by
    rw [mul_finite _ _ (by decide) (by decide), toRat_two, toRat_one]
    exact round_eq _ _ _ (by decide) (by decide) (by rw [toRat_two]; norm_num)
  have h2ab : mul (ofFields false 1024 0) (zero false) = zero false := by
    rw [mul_finite _ _ (by decide) (by decide), toRat_zero, mul_zero, round_zero]
    rfl
  have haa : mul one one = one := by
    rw [mul_finite _ _ (by decide) (by decide), toRat_one]
    exact round_eq _ _ _ (by decide) (by decide) (by rw [toRat_one]; norm_num)
  have hbb : mul (zero false) (zero false) = zero false := by
    rw [mul_finite _ _ (by decide) (by decide), toRat_zero, mul_zero, round_zero]
    rfl
  have hsum : add one (zero false) = one := by
    rw [add_finite _ _ (by decide) (by decide), toRat_one, toRat_zero]
    exact round_eq _ _ _ (by decide) (by decide) (by rw [toRat_one]; norm_num)
  have hdiv : div (zero false) one = zero false := by
    rw [div_finite _ _ (by decide) (by decide) (by decide), toRat_zero, zero_div, round_zero]
    rfl
  have hz : (one.isZero && (zero false).isZero) = false := by decide
  simp only [calculateF, calculateFWith, doubleArith, hz, Bool.false_eq_true, if_false,
    ofInt_two, h2a, h2ab, haa, hbb, hsum, hdiv]

/-- C14: `calculateF` computes `2ab / (a² + b²)`.  In exact arithmetic, for every
nonzero `a`, `calculateF(a, 0) = 0` and `calculateF(a, a) = 1`, and for every
`(a, b) ≠ (0, 0)` the result is `2ab / (a² + b²)`; in double arithmetic the
spec's witnesses hold: `calculateF(1, 0) = 0` and `calculateF(1, 1) = 1.0`. -/
theorem C14_calculateF_formula :
    (∀ a : ℚ, a ≠ 0 → calculateFExact a 0 = Except.ok 0 ∧ calculateFExact a a = Except.ok 1) ∧
      (∀ a b : ℚ, ¬ (a = 0 ∧ b = 0) →
        calculateFExact a b = Except.ok (2 * a * b / (a ^ 2 + b ^ 2))) ∧
      calculateF one (zero false) = Except.ok (zero false) ∧
      calculateF one one = Except.ok one := by
  refine ⟨?_, ?_, calculateF_one_zero, calculateF_one_one⟩
  · intro a ha
    constructor
    · simp [calculateFExact, calculateFWith, exactArith, ha]
    · have h2 : a * a + a * a ≠ 0 := by
        have : 0 < a * a := mul_self_pos.2 ha
        linarith
      have hc : (decide (a = 0) && decide (a = 0)) = false := by simp [ha]
      simp only [calculateFExact, calculateFWith, exactArith, hc, Bool.false_eq_true, if_false]
      congr 1
      rw [div_eq_one_iff_eq h2]
      push_cast
      ring
  · intro a b hab
    have hc : (decide (a = 0) && decide (b = 0)) = false := by
      by_cases ha : a = 0 <;> by_cases hb : b = 0 <;> simp [ha, hb]
      exact hab ⟨ha, hb⟩
    simp only [calculateFExact, calculateFWith, exactArith, hc, Bool.false_eq_true, if_false]
    congr 1
    push_cast
    ring

/-- C16: with `H = 15` and a double input the exponent store never wraps.  For
every finite nonzero double `v` the `frexp` exponent `exp` lies in
`[−1073, 1024]`, the integer `exp + 16383 − 1` lies in `[15309, 17406]`, its
conversion to `uint16_t` is exact, and the stored exponent is strictly between
`0` and `32767`. -/
theorem C16_exponent_store_exact (v : Double) (hv : v.finiteNonzero = true) :
    -1073 ≤ (frexp v.fabs).2 ∧ (frexp v.fabs).2 ≤ 1024 ∧
      15309 ≤ (frexp v.fabs).2 + EXPONENT_BIAS - 1 ∧
      (frexp v.fabs).2 + EXPONENT_BIAS - 1 ≤ 17406 ∧
      (toUInt16 ((frexp v.fabs).2 + EXPONENT_BIAS - 1) : ℤ)
        = (frexp v.fabs).2 + EXPONENT_BIAS - 1 ∧
      ((toCustomFloat v).exponent : ℤ) = (frexp v.fabs).2 + EXPONENT_BIAS - 1 ∧
      0 < (toCustomFloat v).exponent ∧ (toCustomFloat v).exponent < 32767 := by
  obtain ⟨-, -, -, hlo, hhi⟩ := frexp_spec v.fabs (by rw [finiteNonzero_fabs]; exact hv)
  obtain ⟨-, he, -⟩ := toCustomFloat_general v hv
  have hb := EXPONENT_BIAS_eq
  refine ⟨hlo, hhi, by omega, by omega, ?_, by omega, by omega, by omega⟩
  exact toUInt16_of_range _ (by omega) (by omega)

/-- C16 at the largest finite double, whose `frexp` exponent is `1024`. -/
theorem C16_exponent_store_exact_witness :
    (ofFields false 2046 (2 ^ 52 - 1)).finiteNonzero = true ∧
      ((toCustomFloat (ofFields false 2046 (2 ^ 52 - 1))).exponent : ℤ)
        = (frexp (ofFields false 2046 (2 ^ 52 - 1)).fabs).2 + EXPONENT_BIAS - 1 :=
  ⟨by decide, (C16_exponent_store_exact (ofFields false 2046 (2 ^ 52 - 1)) (by decide)).2.2.2.2.2.1⟩

/-- C17: the top bit of the 24-bit mantissa field is never set.  For every double
`v`, `toCustomFloat(v).mantissa < 2^23 = 8388608` (bit 23 is clear), because for
a finite nonzero `v` the fraction `frac` returned by `frexp` has
`frac − 0.5` in `[0, 0.5)`; only half of the `2^24` mantissa codes are produced. -/
theorem C17_mantissa_top_bit_clear (v : Double) :
    (toCustomFloat v).mantissa < 2 ^ 23 ∧ (2 : ℕ) ^ 23 = 8388608 ∧
      (toCustomFloat v).mantissa.testBit 23 = false ∧
      (v.finiteNonzero = true →
        0 ≤ (frexp v.fabs).1.toRat - 1 / 2 ∧ (frexp v.fabs).1.toRat - 1 / 2 < 1 / 2) := by
  have key : (toCustomFloat v).mantissa < 2 ^ 23 := by
    rcases classify v with h | h | h | h
    · rw [toCustomFloat_nan v h]; norm_num
    · rw [toCustomFloat_inf v h]; norm_num
    · rw [toCustomFloat_zero v h]; norm_num
    · exact (general_ranges v h).2.2
  refine ⟨key, by norm_num, Nat.testBit_eq_false_of_lt key, fun hv => ?_⟩
  obtain ⟨he, hs, -, -, -⟩ := frexp_spec v.fabs (by rw [finiteNonzero_fabs]; exact hv)
  have hs2 : (frexp v.fabs).1.sign = false := hs
  obtain ⟨b1, b2⟩ := frac_bounds (frexp v.fabs).1.frac (frexp v.fabs).1.frac_lt
  have hval : (frexp v.fabs).1.toRat = (2 ^ 52 + (frexp v.fabs).1.frac : ℚ) * 2 ^ (-53 : ℤ) := by
    rw [toRat, hs2, absRat_of_expo_1022 _ he]; rfl
  rw [hval]
  generalize (2 ^ 52 + (frexp v.fabs).1.frac : ℚ) * 2 ^ (-53 : ℤ) = x at b1 b2
  constructor <;> linarith

/-! ## Rounding of values that are not representable -/

/-- A rational within a half of the integer `n` rounds to `n`. -/
theorem roundHalfEven_eq (x : ℚ) (n : ℤ) (h1 : (n : ℚ) - 1 / 2 < x) (h2 : x < (n : ℚ) + 1 / 2) :
    roundHalfEven x = n := by
  by_cases hx : (n : ℚ) ≤ x
  · have hfl : ⌊x⌋ = n := Int.floor_eq_iff.2 ⟨hx, by linarith⟩
    have hr : x - (n : ℚ) < 1 / 2 := by linarith
    simp only [roundHalfEven, hfl, if_pos hr]
  · have hx2 : x < (n : ℚ) := lt_of_not_le hx
    have hfl : ⌊x⌋ = n - 1 := Int.floor_eq_iff.2 ⟨by push_cast; linarith, by push_cast; linarith⟩
    have hr1 : ¬ x - ((n - 1 : ℤ) : ℚ) < 1 / 2 := by push_cast; linarith
    have hr2 : 1 / 2 < x - ((n - 1 : ℤ) : ℚ) := by push_cast; linarith
    simp only [roundHalfEven, hfl, if_neg hr1, if_pos hr2]
    ring

/-- The result of `round` once the binade `e` and the rounded significand `m`
are known and no overflow occurs. -/
theorem round_of_rounded (q : ℚ) (s0 : Bool) (hq : q ≠ 0) (e : ℤ) (m : ℕ)
    (hlog : max (Int.log 2 |q|) (-1022) = e)
    (hm : roundHalfEven (|q| * 2 ^ (52 - e)) = (m : ℤ)) (hm53 : m < 2 ^ 53) (he : e ≤ 1023) :
    round q s0 = if m < 2 ^ 52 then ofFields (decide (q < 0)) 0 m
      else ofFields (decide (q < 0)) (e + 1023).toNat m := by
  have h53 : ¬ m = 2 ^ 53 := by omega
  have he2 : ¬ 1023 < e := by omega
  simp only [Double.round, if_neg hq, hlog, hm, Int.toNat_natCast, if_neg h53, if_neg he2]

/-- Overflow: a magnitude of `2^1024` or more rounds to an infinity. -/
theorem round_overflow (q : ℚ) (s0 : Bool) (h : (2 : ℚ) ^ (1024 : ℤ) ≤ |q|) :
    round q s0 = inf (decide (q < 0)) := by
  have hpos : 0 < |q| := lt_of_lt_of_le (by positivity) h
  have hq : q ≠ 0 := abs_pos.1 hpos
  have hlog : 1024 ≤ Int.log 2 |q| :=
    (Int.zpow_le_iff_le_log (b := 2) (by decide) hpos).1 (by simpa using h)
  have hE : 1024 ≤ max (Int.log 2 |q|) (-1022) := le_max_of_le_left hlog
  simp only [Double.round, if_neg hq]
  split_ifs <;> first | rfl | omega

/-- Underflow: a nonzero magnitude below `2^-1075`, half of the smallest
subnormal, rounds to a zero. -/
theorem round_underflow (q : ℚ) (s0 : Bool) (hq : q ≠ 0) (h : |q| < (2 : ℚ) ^ (-1075 : ℤ)) :
    round q s0 = zero (decide (q < 0)) := by
  have hpos : 0 < |q| := abs_pos.2 hq
  have hlt : |q| < (2 : ℚ) ^ (-1022 : ℤ) :=
    lt_trans h (zpow_lt_zpow_right₀ (by norm_num) (by norm_num))
  have hlog : max (Int.log 2 |q|) (-1022) = -1022 := by
    apply max_eq_right
    have := (Int.lt_zpow_iff_log_lt (b := 2) (by decide) hpos (x := -1022)).1
      (by simpa using hlt)
    omega
  have hx : |q| * 2 ^ (52 - (-1022 : ℤ)) < 1 / 2 := by
    have h1 : |q| * 2 ^ (52 - (-1022 : ℤ)) < 2 ^ (-1075 : ℤ) * 2 ^ (52 - (-1022 : ℤ)) :=
      mul_lt_mul_of_pos_right h (by positivity)
    have h2 : (2 : ℚ) ^ (-1075 : ℤ) * 2 ^ (52 - (-1022 : ℤ)) = 1 / 2 := by
      rw [← zpow_add₀ (by norm_num)]; norm_num
    rw [h2] at h1; exact h1
  have hx0 : 0 ≤ |q| * 2 ^ (52 - (-1022 : ℤ)) := by positivity
  have hm : roundHalfEven (|q| * 2 ^ (52 - (-1022 : ℤ))) = ((0 : ℕ) : ℤ) := by
    apply roundHalfEven_eq
    · push_cast; linarith
    · push_cast; linarith
  rw [round_of_rounded q s0 hq (-1022) 0 hlog hm (by norm_num) (by norm_num),
    if_pos (by norm_num)]
  rfl

theorem ldexp_finite (x : Double) (n : ℤ) (hx : x.finiteNonzero = true) :
    ldexp x n = round (x.toRat * 2 ^ n) x.sign := by
  obtain ⟨hfin, hnz⟩ := (finiteNonzero_iff x).1 hx
  obtain ⟨h1, h2⟩ := not_special_of_expo x hfin
  simp only [ldexp, h1, h2, hnz]
  rfl

/-- The inner value of line 66: `1.0 - std::ldexp(1.0, -M_SIZE)` is the double
`1 − 2^-24`, computed without rounding. -/
theorem one_sub_ulp :
    Double.sub one (ldexp one (-(M_SIZE : Int))) = ofFields false 1022 (2 ^ 52 - 2 ^ 29) ∧
      (ofFields false 1022 (2 ^ 52 - 2 ^ 29)).toRat = 1 - 2 ^ (-24 : ℤ) := by
  have hval : (ofFields false 1022 (2 ^ 52 - 2 ^ 29)).toRat = 1 - 2 ^ (-24 : ℤ) := by
    simp only [ofFields, toRat, absRat]
    norm_num
  have h24 : (ofFields false 999 0).toRat = 2 ^ (-24 : ℤ) := by
    simp only [ofFields, toRat, absRat]
    norm_num
  have hl : ldexp one (-(M_SIZE : Int)) = ofFields false 999 0 := by
    rw [ldexp_finite one _ (by decide), toRat_one]
    exact round_eq _ _ _ (by decide) (by decide) (by rw [h24]; simp [M_SIZE])
  refine ⟨?_, hval⟩
  rw [hl, sub_finite _ _ (by decide) (by decide), toRat_one, h24]
  exact round_eq _ _ _ (by decide) (by decide) hval

/-- C18 (the code): `max_positive = ldexp(1 − 2^-24, 16383)` overflows the double
range, whose largest binade is `2^1023`; the value computed is `+infinity`, so
the records printed as maximum positive and minimum negative value are the
encodings of `+infinity` and `−infinity`, with exponent `32767`. -/
theorem C18_max_positive_is_infinity :
    max_positive = inf false ∧ max_positive.isinf = true ∧
      toCustomFloat max_positive = ⟨false, 32767, 0⟩ ∧
      toCustomFloat max_positive.neg = ⟨true, 32767, 0⟩ ∧
      toCustomFloat max_positive = toCustomFloat (inf false) := by
  obtain ⟨hsub, hval⟩ := one_sub_ulp
  have hc : (1 : ℚ) - 2 ^ (-24 : ℤ) = 16777215 / 16777216 := by norm_num
  have h2 : (2 : ℚ) ^ (16383 : ℤ) = 2 * 2 ^ (16382 : ℤ) := by
    rw [show (16383 : ℤ) = 16382 + 1 by norm_num, zpow_add_one₀ (by norm_num)]; ring
  have hmono : (2 : ℚ) ^ (1024 : ℤ) ≤ 2 ^ (16382 : ℤ) :=
    zpow_le_zpow_right₀ (by norm_num) (by norm_num)
  have hp : (0 : ℚ) < 2 ^ (16382 : ℤ) := by positivity
  have hq : (2 : ℚ) ^ (1024 : ℤ) ≤ (1 - 2 ^ (-24 : ℤ)) * 2 ^ (16383 : ℤ) := by
    rw [hc, h2]
    generalize (2 : ℚ) ^ (16382 : ℤ) = y at hmono hp
    linarith
  have hqpos : (0 : ℚ) < (1 - 2 ^ (-24 : ℤ)) * 2 ^ (16383 : ℤ) :=
    lt_of_lt_of_le (by positivity) hq
  have hmax : max_positive = inf false := by
    unfold max_positive
    rw [hsub, ldexp_finite _ _ (by decide), hval, EXPONENT_BIAS_eq,
      round_overflow _ _ (by rw [abs_of_pos hqpos]; exact hq)]
    have : decide ((1 - 2 ^ (-24 : ℤ)) * 2 ^ (16383 : ℤ) < (0 : ℚ)) = false :=
      decide_eq_false (not_lt.2 hqpos.le)
    rw [this]
  rw [hmax]
  refine ⟨rfl, by decide, ?_, ?_, rfl⟩
  · rw [toCustomFloat_inf _ (by decide)]; rfl
  · rw [toCustomFloat_inf _ (by decide)]; rfl

/-- C19 (the code): `min_nonzero = ldexp(1.0, −16383 − 24 + 1) = ldexp(1.0, −16406)`
underflows the double range, whose smallest positive value is `2^-1074`; the
value computed is `+0.0`, and the record printed as minimum nonzero value (and
as subnormal value) is the zero encoding. -/
theorem C19_min_nonzero_is_zero :
    -EXPONENT_BIAS - (M_SIZE : Int) + 1 = -16406 ∧ min_nonzero = zero false ∧
      min_nonzero.isZero = true ∧ toCustomFloat min_nonzero = ⟨false, 0, 0⟩ := by
  have hn : -EXPONENT_BIAS - (M_SIZE : Int) + 1 = -16406 := by decide
  have hpos : (0 : ℚ) < 1 * 2 ^ (-16406 : ℤ) := by positivity
  have hlt : |(1 : ℚ) * 2 ^ (-16406 : ℤ)| < 2 ^ (-1075 : ℤ) := by
    rw [abs_of_pos hpos, one_mul]
    exact zpow_lt_zpow_right₀ (by norm_num) (by norm_num)
  have hmin : min_nonzero = zero false := by
    unfold min_nonzero
    rw [hn, ldexp_finite one _ (by decide), toRat_one, round_underflow _ _ hpos.ne' hlt]
    have : decide ((1 : ℚ) * 2 ^ (-16406 : ℤ) < 0) = false :=
      decide_eq_false (not_lt.2 hpos.le)
    rw [this]
  rw [hmin]
  refine ⟨hn, rfl, by decide, ?_⟩
  rw [toCustomFloat_zero _ (by decide)]; rfl

/-! ## The trip of the result through text -/

theorem isnan_ofFields_of_lt (s : Bool) (e f : ℕ) (h : e < 2047) :
    (ofFields s e f).isnan = false := by
  have h1 : e % 2048 = e := Nat.mod_eq_of_lt (by omega)
  have h2 : ¬ e = 2047 := by omega
  simp [isnan, ofFields, h1, h2]

/-- The function `round` never returns a NaN, and its result carries the sign of
the rounded value (or the supplied sign for an exact zero). -/
theorem round_sign (q : ℚ) (s0 : Bool) :
    (round q s0).isnan = false ∧
      (round q s0).sign = (if q = 0 then s0 else decide (q < 0)) := by
  by_cases hq : q = 0
  · subst hq
    rw [round_zero, if_pos rfl]
    exact ⟨by cases s0 <;> rfl, rfl⟩
  · rw [if_neg hq]
    simp only [Double.round, if_neg hq]
    split_ifs with h1 h2 h3 h4 h5
    · exact ⟨rfl, rfl⟩
    · exact ⟨isnan_ofFields_of_lt _ _ _ (by norm_num), rfl⟩
    · exact ⟨isnan_ofFields_of_lt _ _ _ (by omega), rfl⟩
    · exact ⟨rfl, rfl⟩
    · exact ⟨isnan_ofFields_of_lt _ _ _ (by norm_num), rfl⟩
    · exact ⟨isnan_ofFields_of_lt _ _ _ (by omega), rfl⟩

theorem toCustomFloat_sign (v : Double) : (toCustomFloat v).sign = (!v.isnan && v.sign) := by
  rcases classify v with h | h | h | h
  · rw [toCustomFloat_nan v h, h]; rfl
  · have hn : v.isnan = false := by
      simp only [isnan, isinf, Bool.and_eq_true, beq_iff_eq] at h ⊢
      simp [h.2]
    rw [toCustomFloat_inf v h, hn]; rfl
  · have he : v.expo = 0 := by
      simp only [isZero, Bool.and_eq_true, beq_iff_eq] at h; exact h.1
    have hn : v.isnan = false := by simp [isnan, he]
    rw [toCustomFloat_zero v h, hn]; rfl
  · have hn : v.isnan = false := by
      simp only [finiteNonzero, Bool.and_eq_true, Bool.not_eq_true'] at h; exact h.1.1
    rw [(toCustomFloat_general v h).1, hn]; rfl

/-- A finite double whose value has at most six decimal places is returned
unchanged by the trip through `std::to_string` and `std::stod`. -/
theorem stodToString_exact (r : Double) (hfin : r.expo ≠ 2047) (n : ℤ)
    (hn : r.toRat * 10 ^ 6 = (n : ℚ)) : stodToString r = r := by
  obtain ⟨h1, h2⟩ := not_special_of_expo r hfin
  have habs : r.absRat * 10 ^ 6 = ((|n| : ℤ) : ℚ) := by
    rw [← abs_toRat, Int.cast_abs, ← hn, abs_mul, abs_of_pos (by positivity : (0 : ℚ) < 10 ^ 6)]
  have hmag : r.toStringMagnitude = r.absRat := by
    rw [toStringMagnitude, habs, roundHalfEven_intCast, ← habs]
    field_simp
  have hq : (if r.sign then -r.toStringMagnitude else r.toStringMagnitude) = r.toRat := by
    rw [hmag]; rfl
  simp only [stodToString, h1, h2, Bool.false_eq_true, if_false]
  rw [hq]
  by_cases hz : r.isZero = true
  · have h0 : r.toRat = 0 := by
      simp only [isZero, Bool.and_eq_true, beq_iff_eq] at hz
      simp [toRat, absRat, hz.1, hz.2]
    rw [h0, round_zero]
    have := r.ofFields_eq
    simp only [isZero, Bool.and_eq_true, beq_iff_eq] at hz
    rw [hz.1, hz.2] at this
    exact this
  · exact round_toRat r hfin (by simpa using hz) r.sign

/-- The sign field survives the trip through text for every double. -/
theorem stodToString_sign (r : Double) :
    (toCustomFloat (stodToString r)).sign = (toCustomFloat r).sign := by
  rw [toCustomFloat_sign, toCustomFloat_sign]
  by_cases hn : r.isnan = true
  · have h2 : (stodToString r).isnan = true := by
      simp only [stodToString, hn, if_true]
      rfl
    rw [hn, h2]; rfl
  · have hn2 : r.isnan = false := by simpa using hn
    by_cases hi : r.isinf = true
    · have : stodToString r = r := by simp only [stodToString, hn2, hi, if_true]; rfl
      rw [this]
    · have hi2 : r.isinf = false := by simpa using hi
      have hst : stodToString r
          = round (if r.sign then -r.toStringMagnitude else r.toStringMagnitude) r.sign := by
        simp only [stodToString, hn2, hi2, Bool.false_eq_true, if_false]
      obtain ⟨k1, k2⟩ := round_sign
        (if r.sign then -r.toStringMagnitude else r.toStringMagnitude) r.sign
      rw [hst, k1, k2, hn2]
      have hm0 : 0 ≤ r.toStringMagnitude := by
        unfold toStringMagnitude
        have : (0 : ℤ) ≤ roundHalfEven (r.absRat * 10 ^ 6) := by
          have hx : (0 : ℚ) ≤ r.absRat * 10 ^ 6 := mul_nonneg r.absRat_nonneg (by positivity)
          unfold roundHalfEven
          have hfl : (0 : ℤ) ≤ ⌊r.absRat * 10 ^ 6⌋ := Int.floor_nonneg.2 hx
          simp only []
          split_ifs <;> omega
        have h2 : (0 : ℚ) ≤ (roundHalfEven (r.absRat * 10 ^ 6) : ℚ) := by exact_mod_cast this
        positivity
      rcases hs : r.sign with _ | _
      · simp only [Bool.false_eq_true, if_false, Bool.not_false, Bool.true_and]
        split_ifs with h0
        · rfl
        · exact decide_eq_false (not_lt.2 hm0)
      · simp only [if_true, Bool.not_false, Bool.true_and]
        split_ifs with h0
        · rfl
        · have hne : r.toStringMagnitude ≠ 0 := fun h => h0 (by rw [h, neg_zero])
          have hpos : 0 < r.toStringMagnitude := lt_of_le_of_ne hm0 (Ne.symm hne)
          exact decide_eq_true (by linarith)

/-- In double arithmetic `calculateF(1, 4)` is the double nearest to `8/17`. -/
theorem calculateF_one_four :
    calculateF one (ofFields false 1025 0) = Except.ok (ofFields false 1021 3973764377091614) := by
  have t4 : (ofFields false 1025 0).toRat = 4 := by
    simp only [ofFields, toRat, absRat]; norm_num
  have t8 : (ofFields false 1026 0).toRat = 8 := by
    simp only [ofFields, toRat, absRat]; norm_num
  have t16 : (ofFields false 1027 0).toRat = 16 := by
    simp only [ofFields, toRat, absRat]; norm_num
  have t17 : (ofFields false 1027 (2 ^ 48)).toRat = 17 := by
    simp only [ofFields, toRat, absRat]; norm_num
  have h2a : mul (ofFields false 1024 0) one = ofFields false 1024 0 := by
    rw [mul_finite _ _ (by decide) (by decide), toRat_two, toRat_one]
    exact round_eq _ _ _ (by decide) (by decide) (by rw [toRat_two]; norm_num)
  have h2ab : mul (ofFields false 1024 0) (ofFields false 1025 0) = ofFields false 1026 0 := by
    rw [mul_finite _ _ (by decide) (by decide), toRat_two, t4]
    exact round_eq _ _ _ (by decide) (by decide) (by rw [t8]; norm_num)
  have haa : mul one one = one := by
    rw [mul_finite _ _ (by decide) (by decide), toRat_one]
    exact round_eq _ _ _ (by decide) (by decide) (by rw [toRat_one]; norm_num)
  have hbb : mul (ofFields false 1025 0) (ofFields false 1025 0) = ofFields false 1027 0 := by
    rw [mul_finite _ _ (by decide) (by decide), t4]
    exact round_eq _ _ _ (by decide) (by decide) (by rw [t16]; norm_num)
  have hsum : add one (ofFields false 1027 0) = ofFields false 1027 (2 ^ 48) := by
    rw [add_finite _ _ (by decide) (by decide), toRat_one, t16]
    exact round_eq _ _ _ (by decide) (by decide) (by rw [t17]; norm_num)
  have hpos : (0 : ℚ) < 8 / 17 := by norm_num
  have hlog : max (Int.log 2 |(8 / 17 : ℚ)|) (-1022) = -2 := by
    rw [abs_of_pos hpos, log_eq_of_bounds (8 / 17) (-2) (by norm_num) (by norm_num)]
    rfl
  have hm : roundHalfEven (|(8 / 17 : ℚ)| * 2 ^ (52 - (-2 : ℤ))) = ((8477364004462110 : ℕ) : ℤ) := by
    rw [abs_of_pos hpos]
    apply roundHalfEven_eq <;> norm_num
  have hdiv : div (ofFields false 1026 0) (ofFields false 1027 (2 ^ 48))
      = ofFields false 1021 3973764377091614 := by
    rw [div_finite _ _ (by decide) (by decide) (by decide), t8, t17,
      round_of_rounded _ _ hpos.ne' (-2) 8477364004462110 hlog hm (by norm_num) (by norm_num),
      if_neg (by norm_num)]
    have hd : decide ((8 / 17 : ℚ) < 0) = false := decide_eq_false (not_lt.2 hpos.le)
    rw [hd]
    decide
  have hz : (one.isZero && (ofFields false 1025 0).isZero) = false := by decide
  simp only [calculateF, calculateFWith, doubleArith, hz, Bool.false_eq_true, if_false,
    ofInt_two, h2a, h2ab, haa, hbb, hsum, hdiv]

/-- The text `std::to_string` writes for the double nearest to `8/17` is
`0.470588`, and `std::stod` returns the double nearest to that decimal. -/
theorem stodToString_eight_seventeenths :
    stodToString (ofFields false 1021 3973764377091614) = ofFields false 1021 3973760138409612 := by
  have habs : (ofFields false 1021 3973764377091614).absRat
      = 8477364004462110 * 2 ^ (-54 : ℤ) := by
    simp only [ofFields, absRat]; norm_num
  have hmag : (ofFields false 1021 3973764377091614).toStringMagnitude = 470588 / 10 ^ 6 := by
    have hr : roundHalfEven ((ofFields false 1021 3973764377091614).absRat * 10 ^ 6)
        = (470588 : ℤ) := by
      rw [habs]
      apply roundHalfEven_eq <;> norm_num
    rw [toStringMagnitude, hr]
    norm_num
  have hpos : (0 : ℚ) < 470588 / 10 ^ 6 := by norm_num
  have hlog : max (Int.log 2 |(470588 / 10 ^ 6 : ℚ)|) (-1022) = -2 := by
    rw [abs_of_pos hpos, log_eq_of_bounds (470588 / 10 ^ 6) (-2) (by norm_num) (by norm_num)]
    rfl
  have hm : roundHalfEven (|(470588 / 10 ^ 6 : ℚ)| * 2 ^ (52 - (-2 : ℤ)))
      = ((8477359765780108 : ℕ) : ℤ) := by
    rw [abs_of_pos hpos]
    apply roundHalfEven_eq <;> norm_num
  have hn : (ofFields false 1021 3973764377091614).isnan = false := by decide
  have hi : (ofFields false 1021 3973764377091614).isinf = false := by decide
  have hs : (ofFields false 1021 3973764377091614).sign = false := rfl
  simp only [stodToString, hn, hi, hs, Bool.false_eq_true, if_false, hmag]
  rw [round_of_rounded _ _ hpos.ne' (-2) 8477359765780108 hlog hm (by norm_num) (by norm_num),
    if_neg (by norm_num)]
  have hd : decide ((470588 / 10 ^ 6 : ℚ) < 0) = false := decide_eq_false (not_lt.2 hpos.le)
  rw [hd]
  decide

/-- C15 as stated fails at `a = 1`, `b = 4`: `r = calculateF(1, 4)` is the double
nearest to `8/17 = 0.47058823…`, encoded with mantissa `7401712`; its text is
`0.470588`, which parses to a double encoded with mantissa `7401705`. -/
theorem C15_round_trip_counterexample :
    calculateF one (ofFields false 1025 0) = Except.ok (ofFields false 1021 3973764377091614) ∧
      toCustomFloat (ofFields false 1021 3973764377091614) = ⟨false, 16381, 7401712⟩ ∧
      toCustomFloat (stodToString (ofFields false 1021 3973764377091614))
        = ⟨false, 16381, 7401705⟩ ∧
      toCustomFloat (stodToString (ofFields false 1021 3973764377091614))
        ≠ toCustomFloat (ofFields false 1021 3973764377091614) := by
  have h1 : toCustomFloat (ofFields false 1021 3973764377091614) = ⟨false, 16381, 7401712⟩ := by
    rw [toCustomFloat_normal _ (by decide) (by decide)]
    decide
  have h2 : toCustomFloat (stodToString (ofFields false 1021 3973764377091614))
      = ⟨false, 16381, 7401705⟩ := by
    rw [stodToString_eight_seventeenths, toCustomFloat_normal _ (by decide) (by decide)]
    decide
  refine ⟨calculateF_one_four, h1, h2, ?_⟩
  rw [h1, h2]
  decide

/-- C15 (amended): for every pair `(a, b)` for which `calculateF` returns `r`, the
record `main` prints is the encoding of `std::stod(std::to_string(r))`, the
double nearest to `r` rounded to six decimal places.  Its sign field is always
that of `toCustomFloat(r)`, and the whole record is bit-identical to
`toCustomFloat(r)` when `r` is a NaN, an infinity, or a value with at most six
decimal places (`r × 10^6` is an integer). -/
theorem C15_text_round_trip (a b r : Double) (h : calculateF a b = Except.ok r) :
    mainResultRecord a b = Except.ok (toCustomFloat (stodToString r)) ∧
      (toCustomFloat (stodToString r)).sign = (toCustomFloat r).sign ∧
      ((r.isnan = true ∨ r.isinf = true ∨ ∃ n : ℤ, r.toRat * 10 ^ 6 = (n : ℚ)) →
        toCustomFloat (stodToString r) = toCustomFloat r) := by
  refine ⟨by simp only [mainResultRecord, h], stodToString_sign r, ?_⟩
  rintro (hn | hi | ⟨n, hn⟩)
  · have h2 : (stodToString r).isnan = true := by
      simp only [stodToString, hn, if_true]
      rfl
    rw [toCustomFloat_nan _ h2, toCustomFloat_nan _ hn]
  · have hn : r.isnan = false := by
      simp only [isnan, isinf, Bool.and_eq_true, beq_iff_eq] at hi ⊢
      simp [hi.2]
    have : stodToString r = r := by simp only [stodToString, hn, hi, if_true]; rfl
    rw [this]
  · by_cases hfin : r.expo = 2047
    · rcases classify r with c | c | c | c
      · have h2 : (stodToString r).isnan = true := by
          simp only [stodToString, c, if_true]
          rfl
        rw [toCustomFloat_nan _ h2, toCustomFloat_nan _ c]
      · have hn2 : r.isnan = false := by
          simp only [isnan, isinf, Bool.and_eq_true, beq_iff_eq] at c ⊢
          simp [c.2]
        have : stodToString r = r := by simp only [stodToString, hn2, c, if_true]; rfl
        rw [this]
      · simp only [isZero, Bool.and_eq_true, beq_iff_eq] at c
        omega
      · exact absurd hfin ((finiteNonzero_iff r).1 c).1
    · rw [stodToString_exact r hfin n hn]

/-- C15 (amended) at `a = b = 1`, where `r = 1.0`. -/
theorem C15_text_round_trip_witness :
    calculateF one one = Except.ok one ∧
      toCustomFloat (stodToString one) = toCustomFloat one :=
  ⟨calculateF_one_one,
    (C15_text_round_trip one one one calculateF_one_one).2.2
      (Or.inr (Or.inr ⟨1000000, by rw [toRat_one]; norm_num⟩))⟩

/-- In double arithmetic the identities of `calculateF` need `a²` to stay in the
double range: for `a = 2^-600` the square underflows to zero and
`calculateF(a, 0)` is `0 / 0`, a NaN. -/
theorem calculateF_underflow :
    calculateF (ofFields false 423 0) (zero false) = Except.ok qNaN := by
  have ta : (ofFields false 423 0).toRat = 2 ^ (-600 : ℤ) := by
    simp only [ofFields, toRat, absRat]; norm_num
  have t2a : (ofFields false 424 0).toRat = 2 ^ (-599 : ℤ) := by
    simp only [ofFields, toRat, absRat]; norm_num
  have h2a : mul (ofFields false 1024 0) (ofFields false 423 0) = ofFields false 424 0 := by
    rw [mul_finite _ _ (by decide) (by decide), toRat_two, ta]
    refine round_eq _ _ _ (by decide) (by decide) ?_
    rw [t2a, show (-599 : ℤ) = -600 + 1 by norm_num, zpow_add_one₀ (by norm_num)]
    ring
  have h2ab : mul (ofFields false 424 0) (zero false) = zero false := by
    rw [mul_finite _ _ (by decide) (by decide), toRat_zero, mul_zero, round_zero]
    rfl
  have hsq : (2 : ℚ) ^ (-600 : ℤ) * 2 ^ (-600 : ℤ) = 2 ^ (-1200 : ℤ) := by
    rw [← zpow_add₀ (by norm_num)]; norm_num
  have hpos : (0 : ℚ) < 2 ^ (-1200 : ℤ) := by positivity
  have haa : mul (ofFields false 423 0) (ofFields false 423 0) = zero false := by
    rw [mul_finite _ _ (by decide) (by decide), ta, hsq,
      round_underflow _ _ hpos.ne' (by
        rw [abs_of_pos hpos]
        exact zpow_lt_zpow_right₀ (by norm_num) (by norm_num))]
    have : decide ((2 : ℚ) ^ (-1200 : ℤ) < 0) = false := decide_eq_false (not_lt.2 hpos.le)
    rw [this]
  have hbb : mul (zero false) (zero false) = zero false := by
    rw [mul_finite _ _ (by decide) (by decide), toRat_zero, mul_zero, round_zero]
    rfl
  have hsum : add (zero false) (zero false) = zero false := by
    rw [add_finite _ _ (by decide) (by decide), toRat_zero, add_zero, round_zero]
    rfl
  have hdiv : div (zero false) (zero false) = qNaN := by decide
  have hz : ((ofFields false 423 0).isZero && (zero false).isZero) = false := by decide
  simp only [calculateF, calculateFWith, doubleArith, hz, Bool.false_eq_true, if_false,
    ofInt_two, h2a, h2ab, haa, hbb, hsum, hdiv]

end AOSLab3
